import Mathlib

/-!
# HTTP server core (`app/server.go`)

A shallow embedding of the three-stage pipeline of the server: request parsing
(`parseRequest`, `parseRequestLine`), route dispatch (`Router.Register`,
`Router.Handle`) and response serialisation (`writeResponseToBytes`), followed by
the properties proved about it.

Modelling conventions.

* A Go `string` is the list of its code points (`Str`); the buffer is taken to be
  UTF-8 text.  `strings.Split`, `strings.SplitN`, `strings.Join` and `+` act on it
  position by position, `strings.TrimSpace` and `strings.ToLower` act per code point,
  as the Go library does.
* A Go `map[string]T` is the list of its entries (`GoMap`), keys pairwise distinct;
  `m[k] = v` overwrites in place or appends, `range m` visits the entries in an
  order chosen by the runtime, which is an explicit input of the code that ranges.
* A run-time panic (index or slice bound out of range) is the `panic` result of
  `Result`.
* The diagnostic `fmt.Printf` calls have no effect on the returned values and are
  left out.
-/

set_option linter.dupNamespace false

namespace HttpServer

/-- A Go string, as the list of its code points. -/
abbrev Str := List Char

/-! ## Go runtime and library -/

/-- The panics the Go runtime raises on the accesses the code makes. -/
inductive Panic where
  | indexOutOfRange (index len : Nat)
  | sliceOutOfRange (low len : Nat)
  deriving DecidableEq, Repr

/-- Outcome of a Go function that may panic. -/
inductive Result (α : Type) where
  | ok (value : α)
  | panic (p : Panic)
  deriving DecidableEq, Repr

/-- Sequencing of computations that may panic. -/
def Result.bind {α β : Type} (x : Result α) (f : α → Result β) : Result β :=
  match x with
  | .ok a => f a
  | .panic p => .panic p

/-- The indexing expression `xs[i]`: panics when `i` is not below `len(xs)`. -/
def index {α : Type} (xs : List α) (i : Nat) : Result α :=
  match xs[i]? with
  | some x => .ok x
  | none => .panic (.indexOutOfRange i xs.length)

/-- The slice expression `xs[i:]`: panics when `i` exceeds `len(xs)`. -/
def sliceFrom {α : Type} (xs : List α) (i : Nat) : Result (List α) :=
  if i ≤ xs.length then .ok (xs.drop i) else .panic (.sliceOutOfRange i xs.length)

/-- The first occurrence of `sep` in a string (`strings.Index`), returned as the text
before it and the text after it; `none` when `sep` does not occur. -/
def cut (sep : Str) : Str → Option (Str × Str)
  | [] => if sep = [] then some ([], []) else none
  | c :: cs =>
    if sep.isPrefixOf (c :: cs) then some ([], (c :: cs).drop sep.length)
    else
      match cut sep cs with
      | some (a, b) => some (c :: a, b)
      | none => none

/-- The loop of `strings.genSplit` for a non-empty separator: cut at the first
occurrence of `sep` at most `n` times, the rest of the string being the last piece. -/
def genSplit (sep : Str) : Nat → Str → List Str
  | 0, s => [s]
  | n + 1, s =>
    match cut sep s with
    | none => [s]
    | some (a, b) => a :: genSplit sep n b

/-- Go `strings.Split(s, sep)`.  With an empty separator the string is exploded into
its code points.  Otherwise the library cuts `Count(s, sep)` times; the loop stops by
itself at the first failed search and a non-empty separator occurs at most `len(s)`
times, so the bound `len(s)` yields the same slice. -/
def Split (s sep : Str) : List Str :=
  if sep = [] then s.map fun c => [c] else genSplit sep s.length s

/-- Go `strings.SplitN(s, sep, n)` for a non-empty separator and `n ≥ 0`: at most `n`
pieces, hence at most `n - 1` cuts (and never more than `len(s)`). -/
def SplitN (s sep : Str) (n : Nat) : List Str :=
  if n = 0 then [] else genSplit sep (min (n - 1) s.length) s

/-- Go `strings.Join(elems, sep)`. -/
def Join (elems : List Str) (sep : Str) : Str :=
  sep.intercalate elems

/-- Go `unicode.IsSpace`: the code points with the Unicode White_Space property. -/
def isSpace (c : Char) : Bool :=
  let r := c.toNat
  (0x09 ≤ r && r ≤ 0x0D) || r == 0x20 || r == 0x85 || r == 0xA0 || r == 0x1680 ||
    (0x2000 ≤ r && r ≤ 0x200A) || r == 0x2028 || r == 0x2029 || r == 0x202F ||
    r == 0x205F || r == 0x3000

/-- Go `strings.TrimSpace`: remove all leading and trailing white space. -/
def TrimSpace (s : Str) : Str :=
  ((s.dropWhile isSpace).reverse.dropWhile isSpace).reverse

/-- Go `unicode.ToLower` on one code point.  On ASCII it shifts `A`..`Z` to `a`..`z`
and keeps everything else; above ASCII it consults the Unicode case tables, which
are the parameter `caseTable`. -/
def toLowerRune (caseTable : Char → Char) (c : Char) : Char :=
  if c.toNat < 128 then
    if 'A'.toNat ≤ c.toNat ∧ c.toNat ≤ 'Z'.toNat then Char.ofNat (c.toNat + 32) else c
  else caseTable c

/-- Go `strings.ToLower`: every code point mapped to lower case. -/
def ToLower (caseTable : Char → Char) (s : Str) : Str :=
  s.map (toLowerRune caseTable)

/-- Go `fmt.Sprintf("%d", n)`: the decimal digits, with a leading minus sign for a
negative number. -/
def fmtInt : Int → Str
  | .ofNat n => Nat.toDigits 10 n
  | .negSucc n => '-' :: Nat.toDigits 10 (n + 1)

/-- A Go `map[string]T`, as the list of its entries. -/
abbrev GoMap (β : Type) := List (Str × β)

/-- The lookup `v, exists := m[k]`. -/
def GoMap.get {β : Type} : GoMap β → Str → Option β
  | [], _ => none
  | (k', v) :: m, k => if k' = k then some v else GoMap.get m k

/-- The assignment `m[k] = v`: the entry for `k` is overwritten if there is one and
added otherwise. -/
def GoMap.set {β : Type} : GoMap β → Str → β → GoMap β
  | [], k, v => [(k, v)]
  | (k', v') :: m, k, v => if k' = k then (k, v) :: m else (k', v') :: GoMap.set m k v

/-! ## Wire model -/

/-- The Go type `Verb`, an open string type. -/
abbrev Verb := Str

/-- The constant `GET`. -/
def GET : Verb := "GET".toList

/-- The constant `POST`. -/
def POST : Verb := "POST".toList

/-- The Go struct `RequestLine`. -/
structure RequestLine where
  Verb : Verb
  Path : Str
  Version : Str
  deriving DecidableEq, Repr

/-- The Go struct `Request`. -/
structure Request where
  RequestLine : RequestLine
  Headers : GoMap Str
  Body : Str
  deriving DecidableEq, Repr

/-- The Go struct `Status`. -/
structure Status where
  Code : Int
  Status : Str
  deriving DecidableEq, Repr

/-- The Go struct `Response`; a nil `Headers` map and an empty one are both `[]`. -/
structure Response where
  Status : Status
  Headers : GoMap Str
  Body : Str
  deriving DecidableEq, Repr

/-- The Go type `Endpoint`. -/
abbrev Endpoint := Request → Response

/-- The Go struct `Router`. -/
structure Router where
  routes : GoMap Endpoint

/-! ## Request parser -/

/-- The line separator the parser splits on and joins with. -/
def CRLF : Str := "\r\n".toList

/-- Go `parseRequestLine`: split on single spaces and read tokens 0, 1 and 2. -/
def parseRequestLine (status : Str) : Result RequestLine :=
  let requestLineParts := Split status " ".toList
  (index requestLineParts 0).bind fun verb =>
  (index requestLineParts 1).bind fun path =>
  (index requestLineParts 2).bind fun version =>
  .ok { Verb := verb, Path := path, Version := version }

/-- One pass of the body of the header loop of `parseRequest` on the line `line`:
the map is assigned to when `len(headerParts) == 2`. -/
def headerStep (caseTable : Char → Char) (headers : GoMap Str) (line : Str) : GoMap Str :=
  let headerParts := SplitN line ":".toList 2
  match headerParts with
  | [name, text] =>
    let key := ToLower caseTable (TrimSpace name)
    let value := TrimSpace text
    headers.set key value
  | _ => headers

/-- The header loop of `parseRequest`,
`for i < len(lines) && lines[i] != "" { ...; i++ }`, run on the lines from index `i`
on (`rest` is `lines[i:]`); returns the final `i` and the header map. -/
def headerLoop (caseTable : Char → Char) : List Str → Nat → GoMap Str → Nat × GoMap Str
  | [], i, headers => (i, headers)
  | line :: rest, i, headers =>
    if line = [] then (i, headers)
    else headerLoop caseTable rest (i + 1) (headerStep caseTable headers line)

/-- Go `parseRequest`. -/
def parseRequest (caseTable : Char → Char) (buf : Str) : Result Request :=
  let lines := Split buf CRLF
  (index lines 0).bind fun status =>
  let (i, headers) := headerLoop caseTable (lines.drop 1) 1 []
  (sliceFrom lines i).bind fun bodyLines =>
  let body := Join bodyLines CRLF
  (parseRequestLine status).bind fun requestLine =>
  .ok { RequestLine := requestLine, Headers := headers, Body := body }

/-! ## Response serializer -/

/-- Go `writeResponseToBytes`.  `range` is the order in which the runtime visits
the entries of a map. -/
def writeResponseToBytes (range : GoMap Str → List (Str × Str)) (response : Response) : Str :=
  let result := "HTTP/1.1 ".toList ++ fmtInt response.Status.Code ++ " ".toList ++
    response.Status.Status ++ "\r\n".toList
  let result := (range response.Headers).foldl
    (fun result kv => result ++ (kv.1 ++ ": ".toList ++ kv.2 ++ "\r\n".toList)) result
  let result := result ++ "\r\n".toList
  result ++ response.Body

/-- A `range` order is admissible when it visits every entry of the map exactly once. -/
def RangeOrder (range : GoMap Str → List (Str × Str)) : Prop :=
  ∀ m, (range m).Perm m

/-! ## Router -/

/-- Go `HTTPRouter`. -/
def HTTPRouter : Router :=
  { routes := [] }

/-- Go `(*Router).Register`. -/
def Router.Register (r : Router) (path : Str) (verb : Verb) (handler : Endpoint) : Router :=
  let key := path ++ verb
  { routes := r.routes.set key handler }

/-- The fallback response of `Handle`. -/
def notFound : Response :=
  { Status := { Code := 404, Status := "Not Found".toList },
    Headers := [("Content-Type".toList, "text/plain".toList)],
    Body := "404 - Not Found".toList }

/-- Go `(*Router).Handle`. -/
def Router.Handle (r : Router) (request : Request) : Response :=
  let key := request.RequestLine.Path ++ request.RequestLine.Verb
  match r.routes.get key with
  | some handler => handler request
  | none => notFound

/-! ## Startup -/

/-- The number of bytes of the UTF-8 encoding of a string (Go `len`). -/
def byteLen (s : Str) : Nat :=
  (s.map Char.utf8Size).sum

/-- The handler `main` registers for `/` and `GET`.  The outcome of
`os.ReadFile("./temp/index.html")` is the input `file`: `none` for a failed read,
`some data` for the bytes read. -/
def rootHandler (file : Option Str) : Endpoint := fun _ =>
  match file with
  | none =>
    { Status := { Code := 500, Status := "Internal Server Error".toList }, Headers := [],
      Body := [] }
  | some data =>
    { Status := { Code := 200, Status := "OK".toList },
      Headers := [("Content-Type".toList, "text/html".toList),
        ("Content-Length".toList, fmtInt (byteLen data))],
      Body := data }

/-- The router as `main` sets it up. -/
def mainRouter (file : Option Str) : Router :=
  HTTPRouter.Register "/".toList GET (rootHandler file)

/-! ## Vocabulary of the statements -/

/-- The request line of a buffer: the text before its first CRLF, the whole text
when there is no CRLF. -/
def requestLineOf (buf : Str) : Str :=
  match cut CRLF buf with
  | some (a, _) => a
  | none => buf

/-- The header lines of a request: the lines after the request line, up to the first
empty line. -/
def headerLinesOf (rest : List Str) : List Str :=
  rest.takeWhile fun l => decide (l ≠ [])

/-- A string without leading and without trailing white space. -/
def Trimmed (s : Str) : Prop :=
  (∀ c, s.head? = some c → isSpace c = false) ∧ (∀ c, s.getLast? = some c → isSpace c = false)


/-! ## Lemmas on the string library -/

theorem cut_cons_pos (sep : Str) (c : Char) (cs : Str) (h : sep.isPrefixOf (c :: cs) = true) :
    cut sep (c :: cs) = some ([], (c :: cs).drop sep.length) := by
  rw [cut, if_pos h]

theorem cut_cons_neg (sep : Str) (c : Char) (cs : Str) (h : ¬ sep.isPrefixOf (c :: cs) = true) :
    cut sep (c :: cs) = (cut sep cs).map fun ab => (c :: ab.1, ab.2) := by
  rw [cut, if_neg h]
  cases cut sep cs with
  | none => rfl
  | some ab => rfl

theorem cut_some_eq (sep : Str) :
    ∀ (s a b : Str), cut sep s = some (a, b) → s = a ++ sep ++ b := by
  intro s
  induction s with
  | nil =>
    intro a b h
    rw [cut] at h
    split at h
    · next hs =>
      simp only [Option.some.injEq, Prod.mk.injEq] at h
      obtain ⟨rfl, rfl⟩ := h
      simp [hs]
    · cases h
  | cons c cs ih =>
    intro a b h
    by_cases hp : sep.isPrefixOf (c :: cs) = true
    · rw [cut_cons_pos sep c cs hp] at h
      simp only [Option.some.injEq, Prod.mk.injEq] at h
      obtain ⟨rfl, rfl⟩ := h
      obtain ⟨t, ht⟩ := List.isPrefixOf_iff_prefix.1 hp
      rw [← ht]
      simp
    · rw [cut_cons_neg sep c cs hp] at h
      cases hc : cut sep cs with
      | none => rw [hc] at h; cases h
      | some ab =>
        rw [hc] at h
        simp only [Option.map_some', Option.some.injEq, Prod.mk.injEq] at h
        obtain ⟨rfl, rfl⟩ := h
        have := ih ab.1 ab.2 hc
        rw [this]
        simp

theorem cut_none_of_absent (sep s : Str) (h : ¬ sep <:+: s) : cut sep s = none := by
  cases hc : cut sep s with
  | none => rfl
  | some ab =>
    exact absurd ⟨ab.1, ab.2, (cut_some_eq sep s ab.1 ab.2 hc).symm⟩ h

theorem cut_length_lt (sep : Str) (hsep : sep ≠ []) (s a b : Str) (h : cut sep s = some (a, b)) :
    b.length < s.length := by
  have hs := cut_some_eq sep s a b h
  have : 0 < sep.length := List.length_pos.2 hsep
  rw [hs]
  simp only [List.length_append]
  omega

/-- Appending text after a string does not move the first occurrence of `sep` in it. -/
theorem cut_append_of_some (sep : Str) (hsep : sep ≠ []) (t : Str) :
    ∀ (s a b : Str), cut sep s = some (a, b) → cut sep (s ++ t) = some (a, b ++ t) := by
  intro s
  induction s with
  | nil =>
    intro a b h
    simp [cut, hsep] at h
  | cons c cs ih =>
    intro a b h
    by_cases hp : sep.isPrefixOf (c :: cs) = true
    · rw [cut_cons_pos sep c cs hp] at h
      simp only [Option.some.injEq, Prod.mk.injEq] at h
      obtain ⟨rfl, rfl⟩ := h
      have hp' := List.isPrefixOf_iff_prefix.1 hp
      have hp2 : sep.isPrefixOf (c :: (cs ++ t)) = true := by
        rw [← List.cons_append]
        exact List.isPrefixOf_iff_prefix.2 (hp'.trans (List.prefix_append _ _))
      have hlen : sep.length ≤ (c :: cs).length := hp'.length_le
      rw [List.cons_append, cut_cons_pos sep c _ hp2, ← List.cons_append,
        List.drop_append_of_le_length hlen]
    · rw [cut_cons_neg sep c cs hp] at h
      cases hc : cut sep cs with
      | none => rw [hc] at h; cases h
      | some ab =>
        rw [hc] at h
        simp only [Option.map_some', Option.some.injEq, Prod.mk.injEq] at h
        obtain ⟨rfl, rfl⟩ := h
        have hcs := cut_some_eq sep cs ab.1 ab.2 hc
        have hlen : sep.length ≤ (c :: cs).length := by
          rw [hcs]; simp only [List.length_cons, List.length_append]; omega
        have hp2 : ¬ sep.isPrefixOf (c :: (cs ++ t)) = true := by
          intro hq
          apply hp
          have hq' := List.isPrefixOf_iff_prefix.1 hq
          rw [← List.cons_append] at hq'
          exact List.isPrefixOf_iff_prefix.2
            (List.prefix_of_prefix_length_le hq' (List.prefix_append _ _) hlen)
        rw [List.cons_append, cut_cons_neg sep c _ hp2, ih ab.1 ab.2 hc]
        rfl

theorem CRLF_eq : CRLF = ['\r', '\n'] := by decide

/-- A string without CRLF, followed by CRLF, is cut exactly at that CRLF. -/
theorem cut_crlf_append (b : Str) :
    ∀ a : Str, cut CRLF a = none → cut CRLF (a ++ CRLF ++ b) = some (a, b) := by
  intro a
  induction a with
  | nil => intro _; simp [CRLF_eq, cut, List.isPrefixOf]
  | cons c cs ih =>
    intro h
    by_cases hp : CRLF.isPrefixOf (c :: cs) = true
    · rw [cut_cons_pos CRLF c cs hp] at h; cases h
    · rw [cut_cons_neg CRLF c cs hp] at h
      have hcs : cut CRLF cs = none := by
        cases hc : cut CRLF cs with
        | none => rfl
        | some ab => rw [hc] at h; cases h
      have hp2 : ¬ CRLF.isPrefixOf (c :: (cs ++ CRLF ++ b)) = true := by
        intro hq
        apply hp
        cases cs with
        | nil => simp [CRLF_eq, List.isPrefixOf] at hq
        | cons d ds =>
          simp only [CRLF_eq, List.cons_append, List.isPrefixOf, Bool.and_eq_true,
            beq_iff_eq, Bool.and_true] at hq ⊢
          exact hq
      rw [List.append_assoc, List.cons_append, ← List.append_assoc, cut_cons_neg CRLF c _ hp2,
        ih hcs]
      rfl

/-- A string without the character `c`, followed by `c`, is cut exactly at that `c`. -/
theorem cut_char_append (c : Char) (b : Str) :
    ∀ a : Str, c ∉ a → cut [c] (a ++ c :: b) = some (a, b) := by
  intro a
  induction a with
  | nil => intro _; simp [cut, List.isPrefixOf]
  | cons d ds ih =>
    intro h
    have hd : c ≠ d := fun e => h (e ▸ List.mem_cons_self _ _)
    have hds : c ∉ ds := fun e => h (List.mem_cons_of_mem _ e)
    have hp : ¬ List.isPrefixOf [c] (d :: (ds ++ c :: b)) = true := by
      simp [List.isPrefixOf, hd]
    rw [List.cons_append, cut_cons_neg [c] d _ hp, ih hds]
    rfl

theorem cut_char_none (c : Char) (s : Str) (h : c ∉ s) : cut [c] s = none := by
  apply cut_none_of_absent
  rintro ⟨a, b, rfl⟩
  exact h (by simp)

theorem cut_char_some (c : Char) :
    ∀ (s a b : Str), cut [c] s = some (a, b) → c ∉ a := by
  intro s
  induction s with
  | nil => intro a b h; simp [cut] at h
  | cons d ds ih =>
    intro a b h
    by_cases hp : List.isPrefixOf [c] (d :: ds) = true
    · rw [cut_cons_pos [c] d ds hp] at h
      simp only [Option.some.injEq, Prod.mk.injEq] at h
      obtain ⟨rfl, rfl⟩ := h
      simp
    · rw [cut_cons_neg [c] d ds hp] at h
      cases hc : cut [c] ds with
      | none => rw [hc] at h; cases h
      | some ab =>
        rw [hc] at h
        simp only [Option.map_some', Option.some.injEq, Prod.mk.injEq] at h
        obtain ⟨rfl, rfl⟩ := h
        have hd : c ≠ d := by
          intro e; apply hp; simp [List.isPrefixOf, e]
        have := ih ab.1 ab.2 hc
        simp [hd, this]

theorem not_mem_of_cut_char_none (c : Char) : ∀ s : Str, cut [c] s = none → c ∉ s := by
  intro s
  induction s with
  | nil => intro _; simp
  | cons d ds ih =>
    intro h
    by_cases hp : List.isPrefixOf [c] (d :: ds) = true
    · rw [cut_cons_pos [c] d ds hp] at h; cases h
    · rw [cut_cons_neg [c] d ds hp] at h
      have hds : cut [c] ds = none := by
        cases hc : cut [c] ds with
        | none => rfl
        | some ab => rw [hc] at h; cases h
      have hd : c ≠ d := by
        intro e; apply hp; simp [List.isPrefixOf, e]
      have := ih hds
      simp [hd, this]

theorem genSplit_ne_nil (sep : Str) (n : Nat) (s : Str) : genSplit sep n s ≠ [] := by
  cases n with
  | zero => simp [genSplit]
  | succ n =>
    rw [genSplit]
    cases cut sep s with
    | none => simp
    | some ab => simp

theorem Join_singleton (a sep : Str) : Join [a] sep = a := by
  simp [Join, List.intercalate, List.intersperse]

theorem Join_cons (a sep : Str) (l : List Str) (h : l ≠ []) :
    Join (a :: l) sep = a ++ sep ++ Join l sep := by
  cases l with
  | nil => exact absurd rfl h
  | cons b l => simp [Join, List.intercalate, List.intersperse]

theorem Join_append (sep : Str) (l₂ : List Str) (h₂ : l₂ ≠ []) :
    ∀ l₁ : List Str, l₁ ≠ [] → Join (l₁ ++ l₂) sep = Join l₁ sep ++ sep ++ Join l₂ sep := by
  intro l₁
  induction l₁ with
  | nil => intro h; exact absurd rfl h
  | cons a l ih =>
    intro _
    cases l with
    | nil => rw [List.singleton_append, Join_cons a sep l₂ h₂, Join_singleton]
    | cons b l =>
      rw [List.cons_append, Join_cons a sep _ (by simp), ih (by simp),
        Join_cons a sep _ (by simp)]
      simp

/-- Joining the pieces of a split with the separator gives the string back. -/
theorem Join_genSplit (sep : Str) : ∀ (n : Nat) (s : Str), Join (genSplit sep n s) sep = s := by
  intro n
  induction n with
  | zero => intro s; simp [genSplit, Join_singleton]
  | succ n ih =>
    intro s
    rw [genSplit]
    cases hc : cut sep s with
    | none => simp [Join_singleton]
    | some ab =>
      simp only
      rw [Join_cons _ _ _ (genSplit_ne_nil sep n ab.2), ih ab.2]
      exact (cut_some_eq sep s ab.1 ab.2 hc).symm

/-- Once the bound on the number of cuts reaches the length of the string, raising it
further changes nothing. -/
theorem genSplit_fuel (sep : Str) (hsep : sep ≠ []) :
    ∀ (n m : Nat) (s : Str), s.length ≤ n → s.length ≤ m → genSplit sep n s = genSplit sep m s := by
  intro n
  induction n with
  | zero =>
    intro m s hn _
    have hs : s = [] := List.length_eq_zero.1 (Nat.le_zero.1 hn)
    subst hs
    cases m with
    | zero => rfl
    | succ m => simp [genSplit, cut, hsep]
  | succ n ih =>
    intro m s hn hm
    cases m with
    | zero =>
      have hs : s = [] := List.length_eq_zero.1 (Nat.le_zero.1 hm)
      subst hs
      simp [genSplit, cut, hsep]
    | succ m =>
      rw [genSplit, genSplit]
      cases hc : cut sep s with
      | none => rfl
      | some ab =>
        have hlt := cut_length_lt sep hsep s ab.1 ab.2 hc
        simp only
        rw [ih m ab.2 (by omega) (by omega)]

theorem Split_of_cut_none (sep : Str) (hsep : sep ≠ []) (s : Str) (h : cut sep s = none) :
    Split s sep = [s] := by
  rw [Split, if_neg hsep]
  cases hl : s.length with
  | zero => rfl
  | succ n => rw [genSplit, h]

theorem Split_of_cut_some (sep : Str) (hsep : sep ≠ []) (s a b : Str)
    (h : cut sep s = some (a, b)) : Split s sep = a :: Split b sep := by
  have hlt := cut_length_lt sep hsep s a b h
  rw [Split, if_neg hsep, Split, if_neg hsep]
  cases hl : s.length with
  | zero => omega
  | succ n =>
    rw [genSplit, h]
    simp only
    rw [genSplit_fuel sep hsep n b.length b (by omega) (le_refl _)]

theorem Split_ne_nil (sep : Str) (hsep : sep ≠ []) (s : Str) : Split s sep ≠ [] := by
  rw [Split, if_neg hsep]
  exact genSplit_ne_nil sep _ s

theorem Join_Split (sep : Str) (hsep : sep ≠ []) (s : Str) : Join (Split s sep) sep = s := by
  rw [Split, if_neg hsep]
  exact Join_genSplit sep _ s

theorem CRLF_ne_nil : CRLF ≠ [] := by decide

/-- Splitting on CRLF distributes over a CRLF in the text. -/
theorem Split_crlf_append (x : Str) :
    ∀ (n : Nat) (p : Str), p.length ≤ n →
      Split (p ++ CRLF ++ x) CRLF = Split p CRLF ++ Split x CRLF := by
  intro n
  induction n with
  | zero =>
    intro p hp
    have hs : p = [] := List.length_eq_zero.1 (Nat.le_zero.1 hp)
    subst hs
    rw [Split_of_cut_some CRLF CRLF_ne_nil _ [] x (cut_crlf_append x [] rfl)]
    rfl
  | succ n ih =>
    intro p hp
    cases hc : cut CRLF p with
    | none =>
      rw [Split_of_cut_some CRLF CRLF_ne_nil _ p x (cut_crlf_append x p hc),
        Split_of_cut_none CRLF CRLF_ne_nil p hc]
      rfl
    | some ab =>
      have hlt := cut_length_lt CRLF CRLF_ne_nil p ab.1 ab.2 hc
      have h2 := cut_append_of_some CRLF CRLF_ne_nil (CRLF ++ x) p ab.1 ab.2 hc
      rw [List.append_assoc, Split_of_cut_some CRLF CRLF_ne_nil _ ab.1 _ h2,
        Split_of_cut_some CRLF CRLF_ne_nil p ab.1 ab.2 hc, ← List.append_assoc,
        ih ab.2 (by omega)]
      rfl

/-- The number of pieces of a split on a single character is one more than the number
of occurrences of the character. -/
theorem Split_char_length (c : Char) :
    ∀ (n : Nat) (s : Str), s.length ≤ n → (Split s [c]).length = s.count c + 1 := by
  intro n
  induction n with
  | zero =>
    intro s hs
    have hs : s = [] := List.length_eq_zero.1 (Nat.le_zero.1 hs)
    subst hs
    rfl
  | succ n ih =>
    intro s hs
    cases hc : cut [c] s with
    | none =>
      rw [Split_of_cut_none [c] (by simp) s hc]
      have hnot : c ∉ s := not_mem_of_cut_char_none c s hc
      simp [List.count_eq_zero_of_not_mem hnot]
    | some ab =>
      have hlt := cut_length_lt [c] (by simp) s ab.1 ab.2 hc
      have hs' := cut_some_eq [c] s ab.1 ab.2 hc
      have hna := cut_char_some c s ab.1 ab.2 hc
      rw [Split_of_cut_some [c] (by simp) s ab.1 ab.2 hc, List.length_cons, ih ab.2 (by omega)]
      rw [hs']
      simp [List.count_eq_zero_of_not_mem hna]

/-! ## Lemmas on maps -/

theorem GoMap.get_set_same {β : Type} (k : Str) (v : β) :
    ∀ m : GoMap β, (m.set k v).get k = some v := by
  intro m
  induction m with
  | nil => simp [GoMap.set, GoMap.get]
  | cons e m ih =>
    obtain ⟨k', v'⟩ := e
    by_cases hk : k' = k
    · simp [GoMap.set, GoMap.get, hk]
    · simp [GoMap.set, GoMap.get, hk, ih]

theorem GoMap.get_set_other {β : Type} (k k₀ : Str) (v : β) (hne : k ≠ k₀) :
    ∀ m : GoMap β, (m.set k v).get k₀ = m.get k₀ := by
  intro m
  induction m with
  | nil => simp [GoMap.set, GoMap.get, hne]
  | cons e m ih =>
    obtain ⟨k', v'⟩ := e
    by_cases hk : k' = k
    · subst hk
      simp [GoMap.set, GoMap.get, hne]
    · by_cases hk₀ : k' = k₀
      · subst hk₀
        simp [GoMap.set, GoMap.get, hk]
      · simp [GoMap.set, GoMap.get, hk, hk₀, ih]

/-! ## Lemmas on the parser -/

/-- Line 0 of every buffer is its request line. -/
theorem Split_crlf_head (buf : Str) :
    ∃ rest, Split buf CRLF = requestLineOf buf :: rest := by
  unfold requestLineOf
  cases hc : cut CRLF buf with
  | none => exact ⟨[], Split_of_cut_none CRLF CRLF_ne_nil buf hc⟩
  | some ab => exact ⟨Split ab.2 CRLF, Split_of_cut_some CRLF CRLF_ne_nil buf ab.1 ab.2 hc⟩

theorem headerLinesOf_cons (l : Str) (rest : List Str) (hl : l ≠ []) :
    headerLinesOf (l :: rest) = l :: headerLinesOf rest := by
  simp [headerLinesOf, hl]

theorem headerLinesOf_nil_cons (rest : List Str) : headerLinesOf ([] :: rest) = [] := by
  simp [headerLinesOf]

theorem headerLoop_fst (caseTable : Char → Char) :
    ∀ (rest : List Str) (i : Nat) (headers : GoMap Str),
      (headerLoop caseTable rest i headers).1 = i + (headerLinesOf rest).length := by
  intro rest
  induction rest with
  | nil => intro i headers; simp [headerLoop, headerLinesOf]
  | cons l rest ih =>
    intro i headers
    by_cases hl : l = []
    · simp [headerLoop, headerLinesOf, hl]
    · rw [headerLoop, if_neg hl, ih]
      simp [headerLinesOf, hl]
      omega

theorem headerLoop_snd (caseTable : Char → Char) :
    ∀ (rest : List Str) (i : Nat) (headers : GoMap Str),
      (headerLoop caseTable rest i headers).2 =
        (headerLinesOf rest).foldl (headerStep caseTable) headers := by
  intro rest
  induction rest with
  | nil => intro i headers; simp [headerLoop, headerLinesOf]
  | cons l rest ih =>
    intro i headers
    by_cases hl : l = []
    · simp [headerLoop, headerLinesOf, hl]
    · rw [headerLoop, if_neg hl, ih]
      simp [headerLinesOf, hl]

theorem drop_length_headerLinesOf (rest : List Str) :
    rest.drop (headerLinesOf rest).length = rest.dropWhile fun l => decide (l ≠ []) := by
  induction rest with
  | nil => simp [headerLinesOf]
  | cons l rest ih =>
    by_cases hl : l = []
    · simp [headerLinesOf, hl]
    · simpa [headerLinesOf, hl] using ih

/-- What `parseRequest` computes from the lines of the buffer: the request line is
parsed from line 0, the headers are gathered from the header lines, and the body is
the join of the lines left after the header lines. -/
theorem parseRequest_of_lines (caseTable : Char → Char) (buf l0 : Str) (rest : List Str)
    (h : Split buf CRLF = l0 :: rest) :
    parseRequest caseTable buf =
      (parseRequestLine l0).bind fun requestLine =>
        .ok { RequestLine := requestLine,
              Headers := (headerLinesOf rest).foldl (headerStep caseTable) [],
              Body := Join (rest.dropWhile fun l => decide (l ≠ [])) CRLF } := by
  have hlen : (headerLinesOf rest).length ≤ rest.length := by
    unfold headerLinesOf
    exact (List.takeWhile_prefix _).length_le
  have e1 := headerLoop_fst caseTable rest 1 []
  have e2 := headerLoop_snd caseTable rest 1 []
  unfold parseRequest
  simp only [h, index, List.getElem?_cons_zero, Result.bind, List.drop_succ_cons, List.drop_zero]
  cases hloop : headerLoop caseTable rest 1 [] with
  | mk i headers =>
    rw [hloop] at e1 e2
    simp only at e1 e2
    subst e1 e2
    have hle : 1 + (headerLinesOf rest).length ≤ (l0 :: rest).length := by
      simp only [List.length_cons]; omega
    simp only [sliceFrom, if_pos hle]
    rw [Nat.add_comm 1, List.drop_succ_cons, drop_length_headerLinesOf]

theorem parseRequestLine_of_three (status v p x : Str) (more : List Str)
    (h : Split status " ".toList = v :: p :: x :: more) :
    parseRequestLine status = .ok { Verb := v, Path := p, Version := x } := by
  unfold parseRequestLine
  simp only [h]
  simp [index, Result.bind]

theorem parseRequestLine_ok (status : Str) (h : 3 ≤ (Split status " ".toList).length) :
    ∃ requestLine, parseRequestLine status = .ok requestLine := by
  match hs : Split status " ".toList, h with
  | v :: p :: x :: more, _ => exact ⟨_, parseRequestLine_of_three status v p x more hs⟩

theorem parseRequestLine_panic (status : Str) (h : (Split status " ".toList).length < 3) :
    parseRequestLine status =
      .panic (.indexOutOfRange (Split status " ".toList).length
        (Split status " ".toList).length) := by
  have hne := Split_ne_nil " ".toList (by decide) status
  match hs : Split status " ".toList, h, hne with
  | [v], _, _ => unfold parseRequestLine; simp only [hs]; simp [index, Result.bind]
  | [v, p], _, _ => unfold parseRequestLine; simp only [hs]; simp [index, Result.bind]

/-! ## Properties of the router -/

theorem Handle_of_get_none (r : Router) (request : Request)
    (h : r.routes.get (request.RequestLine.Path ++ request.RequestLine.Verb) = none) :
    r.Handle request = notFound := by
  simp [Router.Handle, h]

theorem Handle_of_get_some (r : Router) (request : Request) (h : Endpoint)
    (hk : r.routes.get (request.RequestLine.Path ++ request.RequestLine.Verb) = some h) :
    r.Handle request = h request := by
  simp [Router.Handle, hk]

theorem Register_get_same (r : Router) (p : Str) (v : Verb) (h : Endpoint) :
    (r.Register p v h).routes.get (p ++ v) = some h := by
  simp [Router.Register, GoMap.get_set_same]

/-- C1. After `Register(p, v, h)`, `Handle` applied to a request whose request line
has path `p` and verb `v` returns exactly `h(request)`: the handler receives the full
request and its response is returned unmodified. -/
theorem Handle_Register_same (r : Router) (p : Str) (v : Verb) (h : Endpoint)
    (request : Request) (hp : request.RequestLine.Path = p)
    (hv : request.RequestLine.Verb = v) :
    (r.Register p v h).Handle request = h request := by
  apply Handle_of_get_some
  rw [hp, hv]
  exact Register_get_same r p v h

theorem Handle_Register_same_witness :
    (mainRouter none).Handle
        { RequestLine := { Verb := GET, Path := "/".toList, Version := "HTTP/1.1".toList },
          Headers := [("host".toList, "localhost".toList)], Body := "\r\n".toList } =
      { Status := { Code := 500, Status := "Internal Server Error".toList }, Headers := [],
        Body := [] } :=
  Handle_Register_same HTTPRouter "/".toList GET (rootHandler none) _ rfl rfl

/-- C2 (defect of the lookup key). The key is the plain concatenation of path and
verb, so the request line `ET /G HTTP/1.1` (path `/G`, verb `ET`) has the key `/GET`
of the registration of `/` for `GET`: on the router of `main`, where no registration
was made for path `/G` nor for verb `ET`, `Handle` runs the root handler and does not
return the 404 fallback. -/
theorem Handle_key_collision (caseTable : Char → Char) (file : Option Str) :
    ∃ request, parseRequest caseTable "ET /G HTTP/1.1\r\n\r\n".toList = .ok request ∧
      request.RequestLine.Path = "/G".toList ∧ request.RequestLine.Verb = "ET".toList ∧
      (mainRouter file).Handle request = rootHandler file request ∧
      (mainRouter file).Handle request ≠ notFound := by
  refine ⟨⟨⟨"ET".toList, "/G".toList, "HTTP/1.1".toList⟩, [], "\r\n".toList⟩,
    rfl, rfl, rfl, rfl, ?_⟩
  intro h
  have hc := congrArg (fun r => r.Status.Code) h
  cases file <;> simp [mainRouter, Router.Handle, Router.Register, HTTPRouter, GoMap.set,
    GoMap.get, GET, rootHandler, notFound] at hc

/-- C3. After `Register(p, v, h1)` followed by `Register(p, v, h2)`, `Handle` applied
to a request with path `p` and verb `v` returns `h2(request)`: the second registration
replaces the first, whatever `h1` is. -/
theorem Handle_Register_twice (r : Router) (p : Str) (v : Verb) (h1 h2 : Endpoint)
    (request : Request) (hp : request.RequestLine.Path = p)
    (hv : request.RequestLine.Verb = v) :
    ((r.Register p v h1).Register p v h2).Handle request = h2 request := by
  apply Handle_of_get_some
  rw [hp, hv]
  exact Register_get_same (r.Register p v h1) p v h2

theorem Handle_Register_twice_witness :
    ((HTTPRouter.Register "/x".toList GET (rootHandler none)).Register "/x".toList GET
        (rootHandler (some "hi".toList))).Handle
        { RequestLine := { Verb := GET, Path := "/x".toList, Version := "HTTP/1.1".toList },
          Headers := [], Body := [] } =
      { Status := { Code := 200, Status := "OK".toList },
        Headers := [("Content-Type".toList, "text/html".toList),
          ("Content-Length".toList, "2".toList)],
        Body := "hi".toList } :=
  Handle_Register_twice HTTPRouter "/x".toList GET (rootHandler none)
    (rootHandler (some "hi".toList)) _ rfl rfl

/-! ## Properties of the response serializer -/

theorem range_nil (range : GoMap Str → List (Str × Str)) (hr : RangeOrder range) :
    range [] = [] :=
  List.perm_nil.1 (hr [])

theorem range_singleton (range : GoMap Str → List (Str × Str)) (hr : RangeOrder range)
    (k v : Str) : range [(k, v)] = [(k, v)] :=
  List.perm_singleton.1 (hr [(k, v)])

/-- C4. For a response whose header map has exactly one entry `(k, v)`,
`writeResponseToBytes` returns exactly
`"HTTP/1.1 " ++ decimal(Code) ++ " " ++ Status ++ CRLF ++ k ++ ": " ++ v ++ CRLF ++ CRLF ++ Body`,
and for an empty (or nil) header map the same string without the header line,
whatever the order in which the runtime ranges over maps. -/
theorem writeResponseToBytes_single_header (range : GoMap Str → List (Str × Str))
    (hr : RangeOrder range) (response : Response) :
    (∀ k v, response.Headers = [(k, v)] →
      writeResponseToBytes range response =
        "HTTP/1.1 ".toList ++ fmtInt response.Status.Code ++ " ".toList ++
          response.Status.Status ++ "\r\n".toList ++ k ++ ": ".toList ++ v ++ "\r\n".toList ++
          "\r\n".toList ++ response.Body) ∧
    (response.Headers = [] →
      writeResponseToBytes range response =
        "HTTP/1.1 ".toList ++ fmtInt response.Status.Code ++ " ".toList ++
          response.Status.Status ++ "\r\n".toList ++ "\r\n".toList ++ response.Body) := by
  constructor
  · intro k v hk
    have h1 : range response.Headers = [(k, v)] := by
      rw [hk]; exact range_singleton range hr k v
    simp only [writeResponseToBytes, h1, List.foldl_cons, List.foldl_nil, List.append_assoc]
  · intro hk
    have h1 : range response.Headers = [] := by
      rw [hk]; exact range_nil range hr
    simp only [writeResponseToBytes, h1, List.foldl_nil, List.append_assoc]

theorem writeResponseToBytes_single_header_witness :
    RangeOrder id ∧
      writeResponseToBytes id
          { Status := { Code := 200, Status := "OK".toList },
            Headers := [("Content-Type".toList, "text/plain".toList)],
            Body := "hi".toList } =
        "HTTP/1.1 200 OK\r\nContent-Type: text/plain\r\n\r\nhi".toList :=
  ⟨fun m => List.Perm.refl m,
    ((writeResponseToBytes_single_header id (fun m => List.Perm.refl m)
      { Status := { Code := 200, Status := "OK".toList },
        Headers := [("Content-Type".toList, "text/plain".toList)],
        Body := "hi".toList }).1 "Content-Type".toList "text/plain".toList rfl).trans
      (by decide)⟩

/-! ## Properties of the request parser -/

theorem SplitN_two (c : Char) (line : Str) :
    SplitN line [c] 2 =
      match cut [c] line with
      | none => [line]
      | some (a, b) => [a, b] := by
  cases line with
  | nil => simp [SplitN, genSplit, cut]
  | cons d ds =>
    have hmin : min (2 - 1) (d :: ds).length = 1 := by
      simp only [List.length_cons]; omega
    simp only [SplitN, hmin]
    rw [if_neg (by decide), genSplit]
    cases cut [c] (d :: ds) with
    | none => rfl
    | some ab => rfl

/-- A line without a colon leaves the header map as it is. -/
theorem headerStep_of_no_colon (caseTable : Char → Char) (headers : GoMap Str) (line : Str)
    (h : ':' ∉ line) : headerStep caseTable headers line = headers := by
  have hc := cut_char_none ':' line h
  have hs : SplitN line ":".toList 2 = [line] := by
    have := SplitN_two ':' line
    rw [hc] at this
    exact this
  simp only [headerStep, hs]

/-- A line with a colon assigns the trimmed text after its first colon to the
lower-cased, trimmed text before it. -/
theorem headerStep_of_colon (caseTable : Char → Char) (headers : GoMap Str) (n w : Str)
    (h : ':' ∉ n) :
    headerStep caseTable headers (n ++ ':' :: w) =
      headers.set (ToLower caseTable (TrimSpace n)) (TrimSpace w) := by
  have hc := cut_char_append ':' w n h
  have hs : SplitN (n ++ ':' :: w) ":".toList 2 = [n, w] := by
    have := SplitN_two ':' (n ++ ':' :: w)
    rw [hc] at this
    exact this
  simp only [headerStep, hs]

/-- Every line either has no colon, or splits at its first colon. -/
theorem colon_cases (line : Str) :
    ':' ∉ line ∨ ∃ n w, line = n ++ ':' :: w ∧ ':' ∉ n := by
  cases hc : cut [':'] line with
  | none => exact Or.inl (not_mem_of_cut_char_none ':' line hc)
  | some ab =>
    refine Or.inr ⟨ab.1, ab.2, ?_, cut_char_some ':' line ab.1 ab.2 hc⟩
    have := cut_some_eq [':'] line ab.1 ab.2 hc
    simpa using this

/-- Header lines whose names differ from `key` leave the entry of `key` untouched. -/
theorem foldl_headerStep_get (caseTable : Char → Char) (key : Str) :
    ∀ (ls : List Str) (headers : GoMap Str),
      (∀ l ∈ ls, ∀ n w, l = n ++ ':' :: w → ':' ∉ n →
        ToLower caseTable (TrimSpace n) ≠ key) →
      (ls.foldl (headerStep caseTable) headers).get key = headers.get key := by
  intro ls
  induction ls with
  | nil => intro headers _; rfl
  | cons l ls ih =>
    intro headers h
    rw [List.foldl_cons, ih _ (fun l' hl' => h l' (List.mem_cons_of_mem _ hl'))]
    rcases colon_cases l with hno | ⟨n, w, rfl, hn⟩
    · rw [headerStep_of_no_colon caseTable headers l hno]
    · rw [headerStep_of_colon caseTable headers n w hn]
      exact GoMap.get_set_other _ _ _ (h _ (List.mem_cons_self _ _) n w rfl hn) headers

theorem headerLinesOf_append (pre : List Str) (l : Str) (post : List Str)
    (hpre : ∀ x ∈ pre, x ≠ []) (hl : l ≠ []) :
    headerLinesOf (pre ++ l :: post) = pre ++ l :: headerLinesOf post := by
  induction pre with
  | nil => exact headerLinesOf_cons l post hl
  | cons x pre ih =>
    have hx : x ≠ [] := hpre x (List.mem_cons_self _ _)
    rw [List.cons_append, headerLinesOf_cons x _ hx,
      ih (fun y hy => hpre y (List.mem_cons_of_mem _ hy)), List.cons_append]

/-- C5. Let the first line of the buffer have at least three space-separated tokens,
and let `n ++ ":" ++ w`, with no colon in `n`, be a line after the first line and
before the first empty line (all the lines `pre` between them are non-empty).  If no
later line before the first empty line that has a colon normalises to the same name,
then `parseRequest` returns a request whose `Headers[lowercase(trim(n))]` is
`trim(w)`: the line is split at its FIRST colon, so `w` may contain colons. -/
theorem parseRequest_header_value (caseTable : Char → Char) (buf l0 : Str)
    (pre post : List Str) (n w : Str)
    (hlines : Split buf CRLF = l0 :: (pre ++ (n ++ ':' :: w) :: post))
    (h3 : 3 ≤ (Split l0 " ".toList).length)
    (hpre : ∀ l ∈ pre, l ≠ [])
    (hn : ':' ∉ n)
    (hlast : ∀ l ∈ headerLinesOf post, ∀ n' w', l = n' ++ ':' :: w' → ':' ∉ n' →
      ToLower caseTable (TrimSpace n') ≠ ToLower caseTable (TrimSpace n)) :
    ∃ request, parseRequest caseTable buf = .ok request ∧
      request.Headers.get (ToLower caseTable (TrimSpace n)) = some (TrimSpace w) := by
  obtain ⟨requestLine, hrl⟩ := parseRequestLine_ok l0 h3
  rw [parseRequest_of_lines caseTable buf l0 _ hlines, hrl]
  refine ⟨_, rfl, ?_⟩
  · simp only
    rw [headerLinesOf_append pre (n ++ ':' :: w) post hpre (by simp), List.foldl_append,
      List.foldl_cons, foldl_headerStep_get caseTable _ _ _ hlast,
      headerStep_of_colon caseTable _ n w hn]
    exact GoMap.get_set_same _ _ _

theorem parseRequest_header_value_witness :
    (∃ request, parseRequest id "GET / HTTP/1.1\r\nHost:  example.com\r\n\r\n".toList =
        .ok request ∧ request.Headers.get "host".toList = some "example.com".toList) ∧
    (∃ request, parseRequest id "GET / HTTP/1.1\r\nhost: example.com\r\n\r\n".toList =
        .ok request ∧ request.Headers.get "host".toList = some "example.com".toList) ∧
    (∃ request, parseRequest id "GET / HTTP/1.1\r\nHOST:example.com\r\n\r\n".toList =
        .ok request ∧ request.Headers.get "host".toList = some "example.com".toList) ∧
    (∃ request, parseRequest id
        "GET / HTTP/1.1\r\nA: b\r\nReferer : http://x:80/\r\nfoo\r\n\r\nreferer: no".toList =
        .ok request ∧ request.Headers.get "referer".toList = some "http://x:80/".toList) :=
  ⟨parseRequest_header_value id "GET / HTTP/1.1\r\nHost:  example.com\r\n\r\n".toList
      "GET / HTTP/1.1".toList [] [[], []] "Host".toList "  example.com".toList
      (by decide) (by decide) (by simp) (by decide) (by simp [headerLinesOf]),
    parseRequest_header_value id "GET / HTTP/1.1\r\nhost: example.com\r\n\r\n".toList
      "GET / HTTP/1.1".toList [] [[], []] "host".toList " example.com".toList
      (by decide) (by decide) (by simp) (by decide) (by simp [headerLinesOf]),
    parseRequest_header_value id "GET / HTTP/1.1\r\nHOST:example.com\r\n\r\n".toList
      "GET / HTTP/1.1".toList [] [[], []] "HOST".toList "example.com".toList
      (by decide) (by decide) (by simp) (by decide) (by simp [headerLinesOf]),
    parseRequest_header_value id
      "GET / HTTP/1.1\r\nA: b\r\nReferer : http://x:80/\r\nfoo\r\n\r\nreferer: no".toList
      "GET / HTTP/1.1".toList ["A: b".toList] ["foo".toList, [], "referer: no".toList]
      "Referer ".toList " http://x:80/".toList
      (by decide) (by decide) (by simp) (by decide)
      (by
        intro l hl n' w' hnw _
        have hfoo : l = "foo".toList := by simpa [headerLinesOf] using hl
        have hmem : ':' ∈ l := by rw [hnw]; simp
        rw [hfoo] at hmem
        exact absurd hmem (by decide))⟩

theorem Split_crlf_of_absent (l : Str) (h : ¬ CRLF <:+: l) : Split l CRLF = [l] :=
  Split_of_cut_none CRLF CRLF_ne_nil l (cut_none_of_absent CRLF l h)

/-- Removing a non-empty line that has no colon does not change the gathered headers. -/
theorem foldl_headerStep_skip (caseTable : Char → Char) (l : Str) (post : List Str)
    (hl : l ≠ []) (hcolon : ':' ∉ l) :
    ∀ (pre : List Str) (headers : GoMap Str),
      (headerLinesOf (pre ++ l :: post)).foldl (headerStep caseTable) headers =
        (headerLinesOf (pre ++ post)).foldl (headerStep caseTable) headers := by
  intro pre
  induction pre with
  | nil =>
    intro headers
    rw [List.nil_append, List.nil_append, headerLinesOf_cons l post hl, List.foldl_cons,
      headerStep_of_no_colon caseTable headers l hcolon]
  | cons x pre ih =>
    intro headers
    by_cases hx : x = []
    · subst hx
      rw [List.cons_append, List.cons_append, headerLinesOf_nil_cons, headerLinesOf_nil_cons]
    · rw [List.cons_append, List.cons_append, headerLinesOf_cons x _ hx,
        headerLinesOf_cons x _ hx, List.foldl_cons, List.foldl_cons, ih]

/-- C6. Let the first line of the buffer have at least three space-separated tokens
and let `l` be a non-empty line of it after the first line (it follows a CRLF and is
followed by a CRLF or by the end of the buffer) that contains no colon.
`parseRequest` does not fail on the buffer, nor on the buffer with that line and the
CRLF before it removed, and returns the same header map (and request line) for
both: the line contributes no entry. -/
theorem parseRequest_skips_colonless_line (caseTable : Char → Char) (p l s : Str)
    (h3 : 3 ≤ (Split (requestLineOf (p ++ CRLF ++ l ++ s)) " ".toList).length)
    (hl : l ≠ []) (hcolon : ':' ∉ l) (hcr : ¬ CRLF <:+: l) (hs : s = [] ∨ CRLF <+: s) :
    ∃ request request',
      parseRequest caseTable (p ++ CRLF ++ l ++ s) = .ok request ∧
      parseRequest caseTable (p ++ s) = .ok request' ∧
      request.Headers = request'.Headers ∧ request.RequestLine = request'.RequestLine := by
  obtain ⟨pre, hp⟩ := Split_crlf_head p
  -- the lines of the two buffers
  have hlines : ∃ post, Split (p ++ CRLF ++ l ++ s) CRLF = requestLineOf p :: (pre ++ l :: post) ∧
      Split (p ++ s) CRLF = requestLineOf p :: (pre ++ post) := by
    rcases hs with rfl | ⟨s', rfl⟩
    · refine ⟨[], ?_, ?_⟩
      · rw [List.append_nil, Split_crlf_append l p.length p (le_refl _), hp,
          Split_crlf_of_absent l hcr]
        rfl
      · rw [List.append_nil, List.append_nil, hp]
    · refine ⟨Split s' CRLF, ?_, ?_⟩
      · rw [List.append_assoc, Split_crlf_append (l ++ (CRLF ++ s')) p.length p (le_refl _),
          ← List.append_assoc, Split_crlf_append s' l.length l (le_refl _), hp,
          Split_crlf_of_absent l hcr]
        rfl
      · rw [← List.append_assoc, Split_crlf_append s' p.length p (le_refl _), hp]
        rfl
  obtain ⟨post, h1, h2⟩ := hlines
  have hline : requestLineOf (p ++ CRLF ++ l ++ s) = requestLineOf p := by
    obtain ⟨rest, hrest⟩ := Split_crlf_head (p ++ CRLF ++ l ++ s)
    rw [h1] at hrest
    exact (List.cons.inj hrest).1.symm
  rw [hline] at h3
  obtain ⟨requestLine, hrl⟩ := parseRequestLine_ok (requestLineOf p) h3
  rw [parseRequest_of_lines caseTable _ _ _ h1, parseRequest_of_lines caseTable _ _ _ h2, hrl]
  exact ⟨_, _, rfl, rfl, foldl_headerStep_skip caseTable l post hl hcolon pre [], rfl⟩

theorem parseRequest_skips_colonless_line_witness :
    ∃ request request',
      parseRequest id
          ("GET / HTTP/1.1\r\nHost: a".toList ++ CRLF ++ "garbage".toList ++
            "\r\nAccept: */*\r\n\r\n".toList) = .ok request ∧
      parseRequest id ("GET / HTTP/1.1\r\nHost: a".toList ++ "\r\nAccept: */*\r\n\r\n".toList) =
        .ok request' ∧
      request.Headers = request'.Headers ∧ request.RequestLine = request'.RequestLine :=
  parseRequest_skips_colonless_line id "GET / HTTP/1.1\r\nHost: a".toList "garbage".toList
    "\r\nAccept: */*\r\n\r\n".toList (by decide) (by decide) (by decide)
    (by decide)
    (Or.inr ⟨"Accept: */*\r\n\r\n".toList, by decide⟩)

/-- C8. `parseRequest` panics exactly when the request line (the text before the
first CRLF of the buffer, the whole text when there is none) has fewer than three
space-separated tokens, that is fewer than two spaces; the panic is then the
out-of-range index into the tokens, and on every other buffer a request is returned.
The access to line 0 never fails, also on the empty buffer. -/
theorem parseRequest_panic_iff (caseTable : Char → Char) (buf : Str) :
    index (Split buf CRLF) 0 = .ok (requestLineOf buf) ∧
    ((∃ p, parseRequest caseTable buf = .panic p) ↔
      (Split (requestLineOf buf) " ".toList).length < 3) ∧
    ((Split (requestLineOf buf) " ".toList).length < 3 ↔ (requestLineOf buf).count ' ' < 2) ∧
    ((Split (requestLineOf buf) " ".toList).length < 3 →
      parseRequest caseTable buf =
        .panic (.indexOutOfRange (Split (requestLineOf buf) " ".toList).length
          (Split (requestLineOf buf) " ".toList).length)) ∧
    (3 ≤ (Split (requestLineOf buf) " ".toList).length →
      ∃ request, parseRequest caseTable buf = .ok request) := by
  obtain ⟨rest, hrest⟩ := Split_crlf_head buf
  have hpanic : (Split (requestLineOf buf) " ".toList).length < 3 →
      parseRequest caseTable buf =
        .panic (.indexOutOfRange (Split (requestLineOf buf) " ".toList).length
          (Split (requestLineOf buf) " ".toList).length) := by
    intro h
    rw [parseRequest_of_lines caseTable buf _ rest hrest, parseRequestLine_panic _ h]
    rfl
  have hok : 3 ≤ (Split (requestLineOf buf) " ".toList).length →
      ∃ request, parseRequest caseTable buf = .ok request := by
    intro h
    obtain ⟨requestLine, hrl⟩ := parseRequestLine_ok _ h
    rw [parseRequest_of_lines caseTable buf _ rest hrest, hrl]
    exact ⟨_, rfl⟩
  refine ⟨?_, ⟨?_, ?_⟩, ?_, hpanic, hok⟩
  · rw [hrest]; simp [index]
  · rintro ⟨p, hp⟩
    by_contra hge
    obtain ⟨request, hreq⟩ := hok (Nat.le_of_not_lt hge)
    rw [hreq] at hp
    cases hp
  · intro h
    exact ⟨_, hpanic h⟩
  · have := Split_char_length ' ' (requestLineOf buf).length (requestLineOf buf) (le_refl _)
    have e : " ".toList = [' '] := rfl
    rw [e, this]
    omega

/-- The lines left after the header lines start at the first empty line. -/
theorem dropWhile_cases (rest : List Str) :
    rest.dropWhile (fun l => decide (l ≠ [])) = [] ∨
      ∃ post, rest.dropWhile (fun l => decide (l ≠ [])) = [] :: post ∧
        rest = headerLinesOf rest ++ [] :: post := by
  induction rest with
  | nil => exact Or.inl rfl
  | cons x rest ih =>
    by_cases hx : x = []
    · subst hx
      exact Or.inr ⟨rest, by simp, by rw [headerLinesOf_nil_cons]; rfl⟩
    · have hd : (x :: rest).dropWhile (fun l => decide (l ≠ [])) =
          rest.dropWhile (fun l => decide (l ≠ [])) := by simp [hx]
      rw [hd, headerLinesOf_cons x rest hx]
      rcases ih with h | ⟨post, h1, h2⟩
      · exact Or.inl h
      · exact Or.inr ⟨post, h1, by rw [List.cons_append, ← h2]⟩

/-- C7 (defect of the body slice). The body is joined from `lines[i:]` where `i` is
the index of the blank line itself, so the body keeps the CRLF that ends the blank
line: for the buffer `L0 CRLF Host: a CRLF CRLF hello` the returned body is `CRLF hello`
and not `hello`, and for a request that ends right after the blank line the body is
`CRLF` and not the empty string that a request without blank line gets. -/
theorem parseRequest_body_keeps_blank_line (caseTable : Char → Char) :
    (∃ request,
      parseRequest caseTable "POST /echo HTTP/1.1\r\nHost: a\r\n\r\nhello".toList =
        .ok request ∧
      request.Body = "\r\nhello".toList ∧ request.Body ≠ "hello".toList) ∧
    (∃ request,
      parseRequest caseTable "GET / HTTP/1.1\r\n\r\n".toList = .ok request ∧
      request.Body = "\r\n".toList ∧ request.Body ≠ []) ∧
    (∃ request,
      parseRequest caseTable "GET / HTTP/1.1".toList = .ok request ∧ request.Body = []) :=
  ⟨⟨⟨⟨"POST".toList, "/echo".toList, "HTTP/1.1".toList⟩, [("host".toList, "a".toList)],
      "\r\nhello".toList⟩, rfl, rfl, by decide⟩,
    ⟨⟨⟨"GET".toList, "/".toList, "HTTP/1.1".toList⟩, [], "\r\n".toList⟩, rfl, rfl, by decide⟩,
    ⟨⟨⟨"GET".toList, "/".toList, "HTTP/1.1".toList⟩, [], []⟩, rfl, rfl⟩⟩

/-- C9. Let the first line of the buffer have at least three space-separated tokens
and let the buffer contain no blank line (no CRLF CRLF).  Then `parseRequest` does not
fail, the header scan stops with nothing left of the lines but possibly one final
empty line (every non-empty line after the first has been consumed), and the
returned body is the empty string. -/
theorem parseRequest_no_blank_line (caseTable : Char → Char) (buf : Str)
    (h3 : 3 ≤ (Split (requestLineOf buf) " ".toList).length)
    (hno : ¬ (CRLF ++ CRLF) <:+: buf) :
    ∃ request, parseRequest caseTable buf = .ok request ∧ request.Body = [] ∧
      ((Split buf CRLF).drop (headerLoop caseTable ((Split buf CRLF).drop 1) 1 []).1 = [] ∨
        (Split buf CRLF).drop (headerLoop caseTable ((Split buf CRLF).drop 1) 1 []).1 =
          [[]]) := by
  obtain ⟨rest, hrest⟩ := Split_crlf_head buf
  obtain ⟨requestLine, hrl⟩ := parseRequestLine_ok _ h3
  have hleft : rest.dropWhile (fun l => decide (l ≠ [])) = [] ∨
      rest.dropWhile (fun l => decide (l ≠ [])) = [[]] := by
    rcases dropWhile_cases rest with h | ⟨post, h1, h2⟩
    · exact Or.inl h
    · right
      rw [h1]
      cases post with
      | nil => rfl
      | cons y ys =>
        exfalso
        apply hno
        have hbuf := Join_Split CRLF CRLF_ne_nil buf
        rw [hrest, h2, ← List.cons_append,
          Join_append CRLF ([] :: y :: ys) (by simp) _ (by simp),
          Join_cons [] CRLF (y :: ys) (by simp)] at hbuf
        refine ⟨Join (requestLineOf buf :: headerLinesOf rest) CRLF, Join (y :: ys) CRLF, ?_⟩
        refine Eq.trans ?_ hbuf
        simp
  rw [parseRequest_of_lines caseTable buf _ rest hrest, hrl, hrest, List.drop_succ_cons,
    List.drop_zero, headerLoop_fst, Nat.add_comm 1, List.drop_succ_cons,
    drop_length_headerLinesOf]
  refine ⟨_, rfl, ?_, hleft⟩
  rcases hleft with h | h <;> simp only [h] <;> rfl

theorem parseRequest_no_blank_line_witness :
    ∃ request,
      parseRequest id "GET / HTTP/1.1\r\nHost: a\r\nAccept: */*\r\n".toList = .ok request ∧
      request.Body = [] ∧
      ((Split "GET / HTTP/1.1\r\nHost: a\r\nAccept: */*\r\n".toList CRLF).drop
          (headerLoop id
            ((Split "GET / HTTP/1.1\r\nHost: a\r\nAccept: */*\r\n".toList CRLF).drop 1) 1
            []).1 = [] ∨
        (Split "GET / HTTP/1.1\r\nHost: a\r\nAccept: */*\r\n".toList CRLF).drop
          (headerLoop id
            ((Split "GET / HTTP/1.1\r\nHost: a\r\nAccept: */*\r\n".toList CRLF).drop 1) 1
            []).1 = [[]]) :=
  parseRequest_no_blank_line id "GET / HTTP/1.1\r\nHost: a\r\nAccept: */*\r\n".toList
    (by decide)
    (by decide)

/-! ## Properties of the whole pipeline -/

theorem not_crlf_infix_of_not_mem (l : Str) (h : '\r' ∉ l) : ¬ CRLF <:+: l := by
  rintro ⟨a, b, rfl⟩
  exact h (by simp [CRLF_eq])

/-- The request line `GET P HTTP/1.1` has the three tokens `GET`, `P` and `HTTP/1.1`
when `P` has no space. -/
theorem Split_get_line (P : Str) (hsp : ' ' ∉ P) :
    Split ("GET ".toList ++ P ++ " HTTP/1.1".toList) " ".toList =
      ["GET".toList, P, "HTTP/1.1".toList] := by
  have e1 : "GET ".toList ++ P ++ " HTTP/1.1".toList =
      "GET".toList ++ ' ' :: (P ++ ' ' :: "HTTP/1.1".toList) := by
    simp
  have c1 := cut_char_append ' ' (P ++ ' ' :: "HTTP/1.1".toList) "GET".toList (by decide)
  have c2 := cut_char_append ' ' "HTTP/1.1".toList P hsp
  have e2 : " ".toList = [' '] := rfl
  rw [e1, e2, Split_of_cut_some [' '] (by simp) _ _ _ c1,
    Split_of_cut_some [' '] (by simp) _ _ _ c2,
    Split_of_cut_none [' '] (by simp) _ (cut_char_none ' ' "HTTP/1.1".toList (by decide))]

/-- On the router of `main`, every request whose key is not `/GET` gets the
fallback. -/
theorem mainRouter_Handle_other (file : Option Str) (request : Request)
    (h : request.RequestLine.Path ++ request.RequestLine.Verb ≠ "/GET".toList) :
    (mainRouter file).Handle request = notFound := by
  apply Handle_of_get_none
  have hk : ¬ ("/".toList ++ GET = request.RequestLine.Path ++ request.RequestLine.Verb) :=
    fun e => h e.symm
  simp only [mainRouter, Router.Register, HTTPRouter, GoMap.set, GoMap.get, if_neg hk]

theorem writeResponseToBytes_notFound (range : GoMap Str → List (Str × Str))
    (hr : RangeOrder range) :
    writeResponseToBytes range notFound =
      "HTTP/1.1 404 Not Found\r\nContent-Type: text/plain\r\n\r\n404 - Not Found".toList := by
  have h1 : range notFound.Headers = notFound.Headers :=
    range_singleton range hr "Content-Type".toList "text/plain".toList
  have h2 : writeResponseToBytes range notFound = writeResponseToBytes id notFound := by
    simp only [writeResponseToBytes, h1, id]
  rw [h2]
  decide

/-- C10. On the router set up as in `main` (one registration, of `/` for `GET`), for
every path `P` other than `/` that contains no space and no CR, and for every order
in which the runtime ranges over maps,
`writeResponseToBytes(Handle(parseRequest("GET " ++ P ++ " HTTP/1.1\r\n\r\n")))` is
exactly `"HTTP/1.1 404 Not Found\r\nContent-Type: text/plain\r\n\r\n404 - Not Found"`
(the path need not be non-empty nor free of LF for this). -/
theorem main_not_found (caseTable : Char → Char) (file : Option Str)
    (range : GoMap Str → List (Str × Str)) (hr : RangeOrder range) (P : Str)
    (hP : P ≠ "/".toList) (hsp : ' ' ∉ P) (hcr : '\r' ∉ P) :
    ∃ request,
      parseRequest caseTable ("GET ".toList ++ P ++ " HTTP/1.1\r\n\r\n".toList) = .ok request ∧
      writeResponseToBytes range ((mainRouter file).Handle request) =
        "HTTP/1.1 404 Not Found\r\nContent-Type: text/plain\r\n\r\n404 - Not Found".toList := by
  have hline : ¬ CRLF <:+: ("GET ".toList ++ P ++ " HTTP/1.1".toList) := by
    apply not_crlf_infix_of_not_mem
    simp [hcr]
  have hbuf : "GET ".toList ++ P ++ " HTTP/1.1\r\n\r\n".toList =
      ("GET ".toList ++ P ++ " HTTP/1.1".toList) ++ CRLF ++ CRLF := by
    simp [CRLF_eq]
  have hlines : Split ("GET ".toList ++ P ++ " HTTP/1.1\r\n\r\n".toList) CRLF =
      ("GET ".toList ++ P ++ " HTTP/1.1".toList) :: [[], []] := by
    rw [hbuf, Split_crlf_append CRLF _ _ (le_refl _), Split_crlf_of_absent _ hline]
    rfl
  rw [parseRequest_of_lines caseTable _ _ _ hlines,
    parseRequestLine_of_three _ _ _ _ [] (Split_get_line P hsp)]
  refine ⟨_, rfl, ?_⟩
  rw [mainRouter_Handle_other file _ ?_]
  · exact writeResponseToBytes_notFound range hr
  · intro h
    apply hP
    have h' : P ++ "GET".toList = "/".toList ++ "GET".toList := h
    exact List.append_cancel_right h'

theorem main_not_found_witness :
    RangeOrder id ∧
    ∃ request,
      parseRequest id "GET /missing HTTP/1.1\r\n\r\n".toList = .ok request ∧
      writeResponseToBytes id ((mainRouter none).Handle request) =
        "HTTP/1.1 404 Not Found\r\nContent-Type: text/plain\r\n\r\n404 - Not Found".toList :=
  ⟨fun m => List.Perm.refl m,
    main_not_found id none id (fun m => List.Perm.refl m) "/missing".toList
      (by decide) (by decide) (by decide)⟩

/-! ## Request line -/

/-- A successful `parseRequestLine` returns tokens 0, 1 and 2 of the split on spaces. -/
theorem parseRequestLine_ok_tokens (status : Str) (requestLine : RequestLine)
    (h : parseRequestLine status = .ok requestLine) :
    ∃ more, Split status " ".toList =
      requestLine.Verb :: requestLine.Path :: requestLine.Version :: more := by
  by_cases hlen : (Split status " ".toList).length < 3
  · rw [parseRequestLine_panic status hlen] at h
    cases h
  · match hs : Split status " ".toList, hlen with
    | [], hl => exact absurd (by simp) hl
    | [_], hl => exact absurd (by simp) hl
    | [_, _], hl => exact absurd (by simp) hl
    | v :: p :: x :: more, _ =>
      rw [parseRequestLine_of_three status v p x more hs] at h
      cases h
      exact ⟨more, rfl⟩

/-- A successful `parseRequest` returns tokens 0, 1 and 2 of the request line. -/
theorem parseRequest_ok_tokens (caseTable : Char → Char) (buf : Str) (request : Request)
    (h : parseRequest caseTable buf = .ok request) :
    ∃ more, Split (requestLineOf buf) " ".toList =
      request.RequestLine.Verb :: request.RequestLine.Path ::
        request.RequestLine.Version :: more := by
  obtain ⟨rest, hrest⟩ := Split_crlf_head buf
  rw [parseRequest_of_lines caseTable buf _ rest hrest] at h
  cases hrl : parseRequestLine (requestLineOf buf) with
  | panic p => rw [hrl] at h; cases h
  | ok requestLine =>
    rw [hrl] at h
    simp only [Result.bind, Result.ok.injEq] at h
    subst h
    exact parseRequestLine_ok_tokens _ _ hrl

/-- A non-empty string that neither starts nor ends with `c` and has no two adjacent
`c` splits on `c` into non-empty pieces. -/
theorem Split_char_pieces_ne_nil (c : Char) :
    ∀ (n : Nat) (s : Str), s.length ≤ n → s ≠ [] → s.head? ≠ some c → s.getLast? ≠ some c →
      ¬ [c, c] <:+: s → ∀ t ∈ Split s [c], t ≠ [] := by
  intro n
  induction n with
  | zero =>
    intro s hs hne
    exact absurd (List.length_eq_zero.1 (Nat.le_zero.1 hs)) hne
  | succ n ih =>
    intro s hs hne hhead hlast hdouble t ht
    cases hc : cut [c] s with
    | none =>
      rw [Split_of_cut_none [c] (by simp) s hc] at ht
      rw [List.mem_singleton.1 ht]
      exact hne
    | some ab =>
      obtain ⟨a, b⟩ := ab
      have hlt := cut_length_lt [c] (by simp) s a b hc
      have hs' : s = a ++ [c] ++ b := cut_some_eq [c] s a b hc
      rw [Split_of_cut_some [c] (by simp) s a b hc] at ht
      have ha : a ≠ [] := by
        rintro rfl
        apply hhead
        rw [hs']
        rfl
      have hb : b ≠ [] := by
        rintro rfl
        apply hlast
        rw [hs', List.append_nil, List.getLast?_concat]
      rcases List.mem_cons.1 ht with rfl | ht'
      · exact ha
      · refine ih b (by omega) hb ?_ ?_ ?_ t ht'
        · intro hbh
          cases b with
          | nil => exact hb rfl
          | cons d ds =>
            have hd : d = c := by simpa using hbh
            subst hd
            exact hdouble ⟨a, ds, by rw [hs']; simp⟩
        · rw [hs', List.getLast?_append_of_ne_nil _ hb] at hlast
          exact hlast
        · rintro ⟨x, y, hxy⟩
          exact hdouble ⟨a ++ [c] ++ x, y, by rw [hs', ← hxy]; simp⟩

/-- C11 (counterexample). The request line `GET  HTTP/1.1`, with two adjacent
spaces, parses without panic and yields an empty `Path`: the fields of a returned
request line are not always non-empty. -/
theorem parseRequest_empty_path :
    ¬ ∀ (buf : Str) (request : Request), parseRequest id buf = .ok request →
      request.RequestLine.Verb ≠ [] ∧ request.RequestLine.Path ≠ [] ∧
        request.RequestLine.Version ≠ [] := by
  intro h
  have h1 := h "GET  HTTP/1.1\r\n\r\n".toList
    ⟨⟨"GET".toList, [], "HTTP/1.1".toList⟩, [], "\r\n".toList⟩ (by decide)
  exact h1.2.1 rfl

/-- C11 (amended). For every buffer on which `parseRequest` returns a request and
whose request line neither starts nor ends with a space and has no two adjacent
spaces, the fields `Verb`, `Path` and `Version` of the returned request line are
non-empty. -/
theorem parseRequest_fields_ne_nil (caseTable : Char → Char) (buf : Str) (request : Request)
    (h : parseRequest caseTable buf = .ok request)
    (hhead : (requestLineOf buf).head? ≠ some ' ')
    (hlast : (requestLineOf buf).getLast? ≠ some ' ')
    (hdouble : ¬ [' ', ' '] <:+: requestLineOf buf) :
    request.RequestLine.Verb ≠ [] ∧ request.RequestLine.Path ≠ [] ∧
      request.RequestLine.Version ≠ [] := by
  obtain ⟨more, hmore⟩ := parseRequest_ok_tokens caseTable buf request h
  have hne : requestLineOf buf ≠ [] := by
    intro he
    rw [he] at hmore
    have : (Split [] " ".toList).length = 1 := rfl
    rw [hmore] at this
    simp at this
  have e : " ".toList = [' '] := rfl
  rw [e] at hmore
  have hall := Split_char_pieces_ne_nil ' ' _ (requestLineOf buf) (le_refl _) hne hhead hlast
    hdouble
  rw [hmore] at hall
  exact ⟨hall _ (by simp), hall _ (by simp), hall _ (by simp)⟩

theorem parseRequest_fields_ne_nil_witness :
    parseRequest id "GET /index.html HTTP/1.1\r\nHost: a\r\n\r\n".toList =
        .ok ⟨⟨"GET".toList, "/index.html".toList, "HTTP/1.1".toList⟩,
          [("host".toList, "a".toList)], "\r\n".toList⟩ ∧
      ("GET".toList : Str) ≠ [] ∧ ("/index.html".toList : Str) ≠ [] ∧
      ("HTTP/1.1".toList : Str) ≠ [] :=
  ⟨by decide,
    parseRequest_fields_ne_nil id "GET /index.html HTTP/1.1\r\nHost: a\r\n\r\n".toList
      ⟨⟨"GET".toList, "/index.html".toList, "HTTP/1.1".toList⟩,
        [("host".toList, "a".toList)], "\r\n".toList⟩
      (by decide) (by decide) (by decide) (by decide)⟩

/-! ## Normal form of the header map -/

theorem dropWhile_of_head (p : Char → Bool) (l : Str)
    (h : ∀ c, l.head? = some c → p c = false) : l.dropWhile p = l := by
  cases l with
  | nil => rfl
  | cons c cs => simp [List.dropWhile, h c rfl]

theorem TrimSpace_of_trimmed (s : Str) (h : Trimmed s) : TrimSpace s = s := by
  unfold TrimSpace
  rw [dropWhile_of_head isSpace s h.1, dropWhile_of_head isSpace s.reverse, List.reverse_reverse]
  intro c hc
  rw [List.head?_reverse] at hc
  exact h.2 c hc

theorem head_dropWhile (p : Char → Bool) (l : Str) (c : Char)
    (h : (l.dropWhile p).head? = some c) : p c = false := by
  have := List.head?_dropWhile_not p l
  rw [h] at this
  exact this

theorem trimmed_TrimSpace (s : Str) : Trimmed (TrimSpace s) := by
  unfold TrimSpace
  constructor
  · intro c hc
    rw [List.head?_reverse] at hc
    have hne : (s.dropWhile isSpace).reverse.dropWhile isSpace ≠ [] := by
      intro he
      rw [he] at hc
      cases hc
    obtain ⟨x, hx⟩ := List.dropWhile_suffix isSpace (l := (s.dropWhile isSpace).reverse)
    have h2 : ((s.dropWhile isSpace).reverse).getLast? = some c := by
      rw [← hx, List.getLast?_append_of_ne_nil _ hne]
      exact hc
    rw [List.getLast?_reverse] at h2
    exact head_dropWhile isSpace s c h2
  · intro c hc
    rw [List.getLast?_reverse] at hc
    exact head_dropWhile isSpace _ c hc

theorem trimmed_map (f : Char → Char) (hf : ∀ c, isSpace c = false → isSpace (f c) = false)
    (s : Str) (h : Trimmed s) : Trimmed (s.map f) := by
  constructor
  · intro c hc
    rw [List.head?_map] at hc
    cases hh : s.head? with
    | none => rw [hh] at hc; cases hc
    | some d =>
      rw [hh] at hc
      simp only [Option.map_some', Option.some.injEq] at hc
      rw [← hc]
      exact hf d (h.1 d hh)
  · intro c hc
    rw [List.getLast?_map] at hc
    cases hh : s.getLast? with
    | none => rw [hh] at hc; cases hc
    | some d =>
      rw [hh] at hc
      simp only [Option.map_some', Option.some.injEq] at hc
      rw [← hc]
      exact hf d (h.2 d hh)

/-- On ASCII the case tables are not consulted. -/
theorem toLowerRune_ascii (caseTable : Char → Char) (c : Char) (h : c.toNat < 128) :
    toLowerRune caseTable c = toLowerRune id c := by
  simp [toLowerRune, h]

theorem toLowerRune_not_ascii (caseTable : Char → Char) (c : Char) (h : ¬ c.toNat < 128) :
    toLowerRune caseTable c = caseTable c := by
  simp [toLowerRune, h]

/-- Lower-casing an ASCII code point gives an ASCII code point that lower-casing
leaves alone, and never turns a non-space into a space. -/
theorem ascii_lower_facts :
    ∀ n, n < 128 →
      (toLowerRune id (Char.ofNat n)).toNat < 128 ∧
      toLowerRune id (toLowerRune id (Char.ofNat n)) = toLowerRune id (Char.ofNat n) ∧
      (isSpace (Char.ofNat n) = false → isSpace (toLowerRune id (Char.ofNat n)) = false) := by
  decide

theorem toLowerRune_idem (caseTable : Char → Char)
    (hlow : ∀ c, 128 ≤ c.toNat → toLowerRune caseTable (caseTable c) = caseTable c)
    (c : Char) :
    toLowerRune caseTable (toLowerRune caseTable c) = toLowerRune caseTable c := by
  by_cases h : c.toNat < 128
  · have hf := ascii_lower_facts c.toNat h
    rw [Char.ofNat_toNat] at hf
    rw [toLowerRune_ascii caseTable c h, toLowerRune_ascii caseTable _ hf.1]
    exact hf.2.1
  · rw [toLowerRune_not_ascii caseTable c h]
    exact hlow c (Nat.le_of_not_lt h)

theorem toLowerRune_not_space (caseTable : Char → Char)
    (hsp : ∀ c, 128 ≤ c.toNat → isSpace c = false → isSpace (caseTable c) = false)
    (c : Char) (hc : isSpace c = false) : isSpace (toLowerRune caseTable c) = false := by
  by_cases h : c.toNat < 128
  · have hf := ascii_lower_facts c.toNat h
    rw [Char.ofNat_toNat] at hf
    rw [toLowerRune_ascii caseTable c h]
    exact hf.2.2 hc
  · rw [toLowerRune_not_ascii caseTable c h]
    exact hsp c (Nat.le_of_not_lt h) hc

theorem GoMap.mem_set {β : Type} (k : Str) (v : β) (e : Str × β) :
    ∀ m : GoMap β, e ∈ m.set k v → e = (k, v) ∨ e ∈ m := by
  intro m
  induction m with
  | nil =>
    intro h
    exact Or.inl (List.mem_singleton.1 h)
  | cons x m ih =>
    obtain ⟨k', v'⟩ := x
    intro h
    by_cases hk : k' = k
    · rw [GoMap.set, if_pos hk] at h
      rcases List.mem_cons.1 h with h | h
      · exact Or.inl h
      · exact Or.inr (List.mem_cons_of_mem _ h)
    · rw [GoMap.set, if_neg hk] at h
      rcases List.mem_cons.1 h with h | h
      · exact Or.inr (h ▸ List.mem_cons_self _ _)
      · rcases ih h with h | h
        · exact Or.inl h
        · exact Or.inr (List.mem_cons_of_mem _ h)

/-- A property of entries that holds of every normalised header line holds of every
entry of the gathered header map. -/
theorem foldl_headerStep_forall (caseTable : Char → Char) (Q : Str × Str → Prop)
    (hQ : ∀ n w, Q (ToLower caseTable (TrimSpace n), TrimSpace w)) :
    ∀ (ls : List Str) (headers : GoMap Str), (∀ e ∈ headers, Q e) →
      ∀ e ∈ ls.foldl (headerStep caseTable) headers, Q e := by
  intro ls
  induction ls with
  | nil => intro headers h; exact h
  | cons l ls ih =>
    intro headers h
    rw [List.foldl_cons]
    apply ih
    rcases colon_cases l with hno | ⟨n, w, rfl, hn⟩
    · rw [headerStep_of_no_colon caseTable headers l hno]
      exact h
    · rw [headerStep_of_colon caseTable headers n w hn]
      intro e he
      rcases GoMap.mem_set _ _ e headers he with rfl | he'
      · exact hQ n w
      · exact h e he'

/-- The header map of a returned request is gathered from the header lines. -/
theorem parseRequest_ok_headers (caseTable : Char → Char) (buf : Str) (request : Request)
    (h : parseRequest caseTable buf = .ok request) :
    request.Headers =
      (headerLinesOf ((Split buf CRLF).drop 1)).foldl (headerStep caseTable) [] := by
  obtain ⟨rest, hrest⟩ := Split_crlf_head buf
  rw [parseRequest_of_lines caseTable buf _ rest hrest] at h
  cases hrl : parseRequestLine (requestLineOf buf) with
  | panic p => rw [hrl] at h; cases h
  | ok requestLine =>
    rw [hrl] at h
    simp only [Result.bind, Result.ok.injEq] at h
    subst h
    rw [hrest]
    rfl

/-- C12. Let the case tables above ASCII be idempotent under lower-casing and never
map a non-space to a space, as the Unicode tables are.  For every buffer on which
`parseRequest` returns a request, every key `k` of the returned header map satisfies
`lowercase(k) = k` and `trim(k) = k`, and every value `v` satisfies `trim(v) = v`. -/
theorem parseRequest_headers_normalised (caseTable : Char → Char)
    (hlow : ∀ c, 128 ≤ c.toNat → toLowerRune caseTable (caseTable c) = caseTable c)
    (hsp : ∀ c, 128 ≤ c.toNat → isSpace c = false → isSpace (caseTable c) = false)
    (buf : Str) (request : Request) (h : parseRequest caseTable buf = .ok request) :
    ∀ e ∈ request.Headers,
      ToLower caseTable e.1 = e.1 ∧ TrimSpace e.1 = e.1 ∧ TrimSpace e.2 = e.2 := by
  rw [parseRequest_ok_headers caseTable buf request h]
  apply foldl_headerStep_forall caseTable
  · intro n w
    refine ⟨?_, ?_, ?_⟩
    · simp only [ToLower, List.map_map]
      apply List.map_congr_left
      intro c _
      exact toLowerRune_idem caseTable hlow c
    · exact TrimSpace_of_trimmed _
        (trimmed_map _ (toLowerRune_not_space caseTable hsp) _ (trimmed_TrimSpace n))
    · exact TrimSpace_of_trimmed _ (trimmed_TrimSpace w)
  · intro e he
    cases he

theorem parseRequest_headers_normalised_witness :
    parseRequest id "GET / HTTP/1.1\r\n  HoSt \t:  Example.COM  \r\n\r\n".toList =
        .ok ⟨⟨"GET".toList, "/".toList, "HTTP/1.1".toList⟩,
          [("host".toList, "Example.COM".toList)], "\r\n".toList⟩ ∧
      ∀ e ∈ [("host".toList, "Example.COM".toList)],
        ToLower id e.1 = e.1 ∧ TrimSpace e.1 = e.1 ∧ TrimSpace e.2 = e.2 :=
  ⟨by decide,
    parseRequest_headers_normalised id
      (fun c hc => toLowerRune_not_ascii id c (Nat.not_lt.2 hc)) (fun _ _ h => h)
      "GET / HTTP/1.1\r\n  HoSt \t:  Example.COM  \r\n\r\n".toList
      ⟨⟨"GET".toList, "/".toList, "HTTP/1.1".toList⟩,
        [("host".toList, "Example.COM".toList)], "\r\n".toList⟩ (by decide)⟩

/-! ## Well-formed request lines -/

/-- A CRLF cannot straddle a space. -/
theorem not_crlf_infix_append_space (a b : Str) (ha : ¬ CRLF <:+: a) (hb : ¬ CRLF <:+: b) :
    ¬ CRLF <:+: a ++ ' ' :: b := by
  rintro ⟨x, y, hxy⟩
  rw [CRLF_eq, List.append_assoc] at hxy
  rcases List.append_eq_append_iff.1 hxy with ⟨a', ha', hy⟩ | ⟨c', hx', hc'⟩
  · -- the CRLF starts inside `a`
    cases a' with
    | nil =>
      simp at hy
    | cons d a' =>
      cases a' with
      | nil =>
        simp at hy
      | cons e a' =>
        apply ha
        simp only [List.cons_append, List.cons.injEq] at hy
        obtain ⟨hd, he, -⟩ := hy
        subst hd he
        exact ⟨x, a', by rw [CRLF_eq, ha']; simp⟩
  · -- the CRLF starts after the space
    cases c' with
    | nil =>
      simp at hc'
    | cons d c' =>
      apply hb
      simp only [List.cons_append, List.cons.injEq] at hc'
      obtain ⟨-, hc'⟩ := hc'
      exact ⟨c', y, by rw [CRLF_eq, hc']; simp⟩

/-- A line of three space-free tokens separated by single spaces splits into them. -/
theorem Split_three_tokens (V P X : Str) (hV : ' ' ∉ V) (hP : ' ' ∉ P) (hX : ' ' ∉ X) :
    Split (V ++ " ".toList ++ P ++ " ".toList ++ X) " ".toList = [V, P, X] := by
  have e1 : V ++ " ".toList ++ P ++ " ".toList ++ X = V ++ ' ' :: (P ++ ' ' :: X) := by
    simp
  have c1 := cut_char_append ' ' (P ++ ' ' :: X) V hV
  have c2 := cut_char_append ' ' X P hP
  have e2 : " ".toList = [' '] := rfl
  rw [e1, e2, Split_of_cut_some [' '] (by simp) _ _ _ c1,
    Split_of_cut_some [' '] (by simp) _ _ _ c2,
    Split_of_cut_none [' '] (by simp) _ (cut_char_none ' ' X hX)]

/-- C13. For all strings `V`, `P`, `X` that contain no space and no CRLF, and for every
string `R`, `parseRequest(V ++ " " ++ P ++ " " ++ X ++ "\r\n" ++ R)` returns a request
whose request line is exactly `{Verb: V, Path: P, Version: X}`; nothing else is
required of the three tokens (they need not even be non-empty). -/
theorem parseRequest_request_line (caseTable : Char → Char) (V P X R : Str)
    (hV : ' ' ∉ V) (hP : ' ' ∉ P) (hX : ' ' ∉ X)
    (hVc : ¬ CRLF <:+: V) (hPc : ¬ CRLF <:+: P) (hXc : ¬ CRLF <:+: X) :
    ∃ request,
      parseRequest caseTable (V ++ " ".toList ++ P ++ " ".toList ++ X ++ "\r\n".toList ++ R) =
        .ok request ∧
      request.RequestLine = { Verb := V, Path := P, Version := X } := by
  have hline : ¬ CRLF <:+: V ++ " ".toList ++ P ++ " ".toList ++ X := by
    have e1 : V ++ " ".toList ++ P ++ " ".toList ++ X = V ++ ' ' :: (P ++ ' ' :: X) := by
      simp
    rw [e1]
    exact not_crlf_infix_append_space V _ hVc (not_crlf_infix_append_space P X hPc hXc)
  have hlines : Split (V ++ " ".toList ++ P ++ " ".toList ++ X ++ "\r\n".toList ++ R) CRLF =
      (V ++ " ".toList ++ P ++ " ".toList ++ X) :: Split R CRLF := by
    have e : "\r\n".toList = CRLF := rfl
    rw [e, Split_crlf_append R _ _ (le_refl _), Split_crlf_of_absent _ hline]
    rfl
  rw [parseRequest_of_lines caseTable _ _ _ hlines,
    parseRequestLine_of_three _ _ _ _ [] (Split_three_tokens V P X hV hP hX)]
  exact ⟨_, rfl, rfl⟩

theorem parseRequest_request_line_witness :
    ∃ request,
      parseRequest id
          ("PATCH".toList ++ " ".toList ++ "/a\r?b=:c".toList ++ " ".toList ++
            "FTP/9\n".toList ++ "\r\n".toList ++ "Host: a\r\n\r\nbody".toList) =
        .ok request ∧
      request.RequestLine =
        { Verb := "PATCH".toList, Path := "/a\r?b=:c".toList, Version := "FTP/9\n".toList } :=
  parseRequest_request_line id "PATCH".toList "/a\r?b=:c".toList "FTP/9\n".toList
    "Host: a\r\n\r\nbody".toList (by decide) (by decide) (by decide) (by decide) (by decide)
    (by decide)

/-! ## Serialisation of any number of headers -/

theorem foldl_append_flatten (f : Str × Str → Str) :
    ∀ (l : List (Str × Str)) (init : Str),
      l.foldl (fun result kv => result ++ f kv) init = init ++ (l.map f).flatten := by
  intro l
  induction l with
  | nil => intro init; simp
  | cons e l ih =>
    intro init
    rw [List.foldl_cons, ih]
    simp

/-- C14. For every response and every order in which the runtime ranges over maps,
`writeResponseToBytes` returns `"HTTP/1.1 " ++ decimal(Code) ++ " " ++ Status ++ CRLF`,
then the concatenation of `k ++ ": " ++ v ++ CRLF` over an enumeration of the header
entries in which each entry occurs exactly once, then `CRLF`, then the body, and
nothing else: no header is added and the body is not cut. -/
theorem writeResponseToBytes_layout (range : GoMap Str → List (Str × Str))
    (hr : RangeOrder range) (response : Response) :
    ∃ order : List (Str × Str), order.Perm response.Headers ∧
      writeResponseToBytes range response =
        "HTTP/1.1 ".toList ++ fmtInt response.Status.Code ++ " ".toList ++
          response.Status.Status ++ "\r\n".toList ++
          (order.map fun kv => kv.1 ++ ": ".toList ++ kv.2 ++ "\r\n".toList).flatten ++
          "\r\n".toList ++ response.Body := by
  refine ⟨range response.Headers, hr response.Headers, ?_⟩
  simp only [writeResponseToBytes]
  rw [foldl_append_flatten (fun kv => kv.1 ++ ": ".toList ++ kv.2 ++ "\r\n".toList)]

theorem writeResponseToBytes_layout_witness :
    RangeOrder List.reverse ∧
      ∃ order : List (Str × Str),
        order.Perm (rootHandler (some "<p>hi</p>".toList)
          ⟨⟨GET, "/".toList, "HTTP/1.1".toList⟩, [], []⟩).Headers ∧
        writeResponseToBytes List.reverse
            (rootHandler (some "<p>hi</p>".toList)
              ⟨⟨GET, "/".toList, "HTTP/1.1".toList⟩, [], []⟩) =
          "HTTP/1.1 ".toList ++ fmtInt 200 ++ " ".toList ++ "OK".toList ++ "\r\n".toList ++
            (order.map fun kv => kv.1 ++ ": ".toList ++ kv.2 ++ "\r\n".toList).flatten ++
            "\r\n".toList ++ "<p>hi</p>".toList :=
  ⟨fun m => List.reverse_perm m,
    writeResponseToBytes_layout List.reverse (fun m => List.reverse_perm m)
      (rootHandler (some "<p>hi</p>".toList) ⟨⟨GET, "/".toList, "HTTP/1.1".toList⟩, [], []⟩)⟩

/-! ## The root handler -/

theorem byteLen_eq_utf8ByteSize (s : Str) : byteLen s = (String.mk s).utf8ByteSize := by
  induction s with
  | nil => rfl
  | cons c cs ih =>
    have h : byteLen (c :: cs) = c.utf8Size + byteLen cs := by
      simp [byteLen]
    rw [h, ih]
    simp only [String.utf8ByteSize, String.utf8ByteSize.go]
    omega

/-- C15. With the outcome of the file read as an input, the handler that `main`
registers for `/` and `GET` returns, for every request: on a failed read the response
with status `{500, "Internal Server Error"}`, no headers and an empty body; on a read
of the bytes `D` the response with status `{200, "OK"}`, the two headers
`Content-Type: text/html` and `Content-Length: decimal(byte length of D)` and no
other, and body `D`. -/
theorem rootHandler_response (request : Request) :
    (∀ file, (mainRouter file).routes.get ("/".toList ++ GET) = some (rootHandler file)) ∧
    rootHandler none request =
      { Status := { Code := 500, Status := "Internal Server Error".toList }, Headers := [],
        Body := [] } ∧
    ∀ D : Str,
      (rootHandler (some D) request).Status = { Code := 200, Status := "OK".toList } ∧
      (rootHandler (some D) request).Body = D ∧
      (rootHandler (some D) request).Headers.length = 2 ∧
      (rootHandler (some D) request).Headers.get "Content-Type".toList =
        some "text/html".toList ∧
      (rootHandler (some D) request).Headers.get "Content-Length".toList =
        some (Nat.toDigits 10 (String.mk D).utf8ByteSize) := by
  refine ⟨fun file => rfl, rfl, fun D => ⟨rfl, rfl, rfl, rfl, ?_⟩⟩
  rw [← byteLen_eq_utf8ByteSize]
  rfl

/-! ## Frame of a registration -/

/-- C19. `Register(p, v, h)` changes the dispatch of one lookup key only: for every
request whose key `Path ++ Verb` differs from `p ++ v`, `Handle` returns after the
registration the response it returned before it. -/
theorem Handle_Register_other (r : Router) (p : Str) (v : Verb) (h : Endpoint)
    (request : Request)
    (hne : request.RequestLine.Path ++ request.RequestLine.Verb ≠ p ++ v) :
    (r.Register p v h).Handle request = r.Handle request := by
  have hget : (r.Register p v h).routes.get
      (request.RequestLine.Path ++ request.RequestLine.Verb) =
      r.routes.get (request.RequestLine.Path ++ request.RequestLine.Verb) :=
    GoMap.get_set_other _ _ h (fun e => hne e.symm) r.routes
  simp only [Router.Handle, hget]

theorem Handle_Register_other_witness :
    ((mainRouter none).Register "/x".toList POST (rootHandler (some "x".toList))).Handle
        ⟨⟨GET, "/".toList, "HTTP/1.1".toList⟩, [], []⟩ =
      (mainRouter none).Handle ⟨⟨GET, "/".toList, "HTTP/1.1".toList⟩, [], []⟩ ∧
    ((mainRouter none).Register "/x".toList POST (rootHandler (some "x".toList))).Handle
        ⟨⟨GET, "/x".toList, "HTTP/1.1".toList⟩, [], []⟩ =
      (mainRouter none).Handle ⟨⟨GET, "/x".toList, "HTTP/1.1".toList⟩, [], []⟩ :=
  ⟨Handle_Register_other (mainRouter none) "/x".toList POST (rootHandler (some "x".toList))
      ⟨⟨GET, "/".toList, "HTTP/1.1".toList⟩, [], []⟩ (by decide),
    Handle_Register_other (mainRouter none) "/x".toList POST (rootHandler (some "x".toList))
      ⟨⟨GET, "/x".toList, "HTTP/1.1".toList⟩, [], []⟩ (by decide)⟩

/-! ## Headers and body around the blank line -/

theorem headerLinesOf_append_blank (post : List Str) :
    ∀ pre : List Str, headerLinesOf (pre ++ [] :: post) = headerLinesOf pre := by
  intro pre
  induction pre with
  | nil => rw [List.nil_append, headerLinesOf_nil_cons]; rfl
  | cons x pre ih =>
    by_cases hx : x = []
    · subst hx
      rw [List.cons_append, headerLinesOf_nil_cons, headerLinesOf_nil_cons]
    · rw [List.cons_append, headerLinesOf_cons x _ hx, headerLinesOf_cons x _ hx, ih]

theorem Split_crlf_nil : Split [] CRLF = [[]] := by decide

/-- The lines of a buffer that continues after a CRLF start with the lines of the
text before that CRLF. -/
theorem Split_crlf_append_cons (p x : Str) :
    ∃ pre, Split p CRLF = requestLineOf p :: pre ∧
      Split (p ++ CRLF ++ x) CRLF = requestLineOf p :: (pre ++ Split x CRLF) := by
  obtain ⟨pre, hp⟩ := Split_crlf_head p
  exact ⟨pre, hp, by rw [Split_crlf_append x p.length p (le_refl _), hp]; rfl⟩

theorem requestLineOf_append (p x : Str) : requestLineOf (p ++ CRLF ++ x) = requestLineOf p := by
  obtain ⟨pre, -, h⟩ := Split_crlf_append_cons p x
  obtain ⟨rest, hrest⟩ := Split_crlf_head (p ++ CRLF ++ x)
  rw [h] at hrest
  exact (List.cons.inj hrest).1.symm

/-- The lines of a buffer with a blank line after the text `A`. -/
theorem Split_blank_line (A X : Str) (l0 : Str) (pre : List Str)
    (hA : Split A CRLF = l0 :: pre) :
    Split (A ++ CRLF ++ CRLF ++ X) CRLF = l0 :: (pre ++ [] :: Split X CRLF) := by
  have e : A ++ CRLF ++ CRLF ++ X = A ++ CRLF ++ ([] ++ CRLF ++ X) := by simp
  rw [e, Split_crlf_append _ A.length A (le_refl _), Split_crlf_append X 0 [] (le_refl _),
    Split_crlf_nil, hA]
  rfl

theorem Split_trailing_crlf (A : Str) (l0 : Str) (pre : List Str)
    (hA : Split A CRLF = l0 :: pre) :
    Split (A ++ CRLF) CRLF = l0 :: (pre ++ [[]]) := by
  have e : A ++ CRLF = A ++ CRLF ++ [] := by simp
  rw [e, Split_crlf_append [] A.length A (le_refl _), Split_crlf_nil, hA]
  rfl

/-- C16. Let the first line of the buffer have at least three space-separated tokens
and let the buffer have a blank line after the text `A`.  The header map that
`parseRequest` returns is gathered from the lines of `A` after line 0 and before its
first empty line only: it is the same whatever text `B` follows the blank line (a
`name: value` line in `B` adds no entry), and the same when the buffer ends at the
blank line. -/
theorem parseRequest_headers_before_blank_line (caseTable : Char → Char) (A B B' : Str)
    (h3 : 3 ≤ (Split (requestLineOf (A ++ CRLF ++ CRLF ++ B)) " ".toList).length) :
    ∃ request request' request'',
      parseRequest caseTable (A ++ CRLF ++ CRLF ++ B) = .ok request ∧
      parseRequest caseTable (A ++ CRLF ++ CRLF ++ B') = .ok request' ∧
      parseRequest caseTable (A ++ CRLF) = .ok request'' ∧
      request.Headers = request'.Headers ∧ request.Headers = request''.Headers ∧
      request.Headers =
        (headerLinesOf ((Split A CRLF).drop 1)).foldl (headerStep caseTable) [] := by
  obtain ⟨pre, hA⟩ := Split_crlf_head A
  have hline : requestLineOf (A ++ CRLF ++ CRLF ++ B) = requestLineOf A := by
    rw [List.append_assoc A CRLF CRLF, List.append_assoc A (CRLF ++ CRLF) B,
      List.append_assoc CRLF CRLF B, ← List.append_assoc A CRLF (CRLF ++ B)]
    exact requestLineOf_append A (CRLF ++ B)
  rw [hline] at h3
  obtain ⟨requestLine, hrl⟩ := parseRequestLine_ok (requestLineOf A) h3
  rw [parseRequest_of_lines caseTable _ _ _ (Split_blank_line A B _ pre hA),
    parseRequest_of_lines caseTable _ _ _ (Split_blank_line A B' _ pre hA),
    parseRequest_of_lines caseTable _ _ _ (Split_trailing_crlf A _ pre hA), hrl]
  refine ⟨_, _, _, rfl, rfl, rfl, ?_, ?_, ?_⟩
  · simp only [headerLinesOf_append_blank]
  · simp only [headerLinesOf_append_blank]
  · simp only [headerLinesOf_append_blank, hA, List.drop_succ_cons, List.drop_zero]

theorem parseRequest_headers_before_blank_line_witness :
    ∃ request request' request'',
      parseRequest id
          ("GET / HTTP/1.1\r\nHost: a".toList ++ CRLF ++ CRLF ++ "X-In-Body: 1\r\n".toList) =
        .ok request ∧
      parseRequest id ("GET / HTTP/1.1\r\nHost: a".toList ++ CRLF ++ CRLF ++ "other".toList) =
        .ok request' ∧
      parseRequest id ("GET / HTTP/1.1\r\nHost: a".toList ++ CRLF) = .ok request'' ∧
      request.Headers = request'.Headers ∧ request.Headers = request''.Headers ∧
      request.Headers =
        (headerLinesOf ((Split "GET / HTTP/1.1\r\nHost: a".toList CRLF).drop 1)).foldl
          (headerStep id) [] :=
  parseRequest_headers_before_blank_line id "GET / HTTP/1.1\r\nHost: a".toList
    "X-In-Body: 1\r\n".toList "other".toList (by decide)

/-- A separator that occurs in a string is found by `cut`. -/
theorem cut_isSome_of_occurs (sep : Str) (y : Str) :
    ∀ x : Str, ∃ a b, cut sep (x ++ sep ++ y) = some (a, b) := by
  intro x
  induction x with
  | nil =>
    cases hs : ([] ++ sep ++ y : Str) with
    | nil =>
      have hsep : sep = [] := by
        have : sep ++ y = [] := by simpa using hs
        exact (List.append_eq_nil.1 this).1
      exact ⟨[], [], by simp [cut, hsep]⟩
    | cons c cs =>
      have hp : sep.isPrefixOf (c :: cs) = true := by
        rw [← hs]
        exact List.isPrefixOf_iff_prefix.2 ⟨y, by simp⟩
      exact ⟨[], _, cut_cons_pos sep c cs hp⟩
  | cons d x ih =>
    obtain ⟨a, b, hab⟩ := ih
    by_cases hp : sep.isPrefixOf (d :: (x ++ sep ++ y)) = true
    · exact ⟨[], _, by
        rw [List.append_assoc, List.cons_append, ← List.append_assoc]
        exact cut_cons_pos sep d _ hp⟩
    · exact ⟨d :: a, b, by
        rw [List.append_assoc, List.cons_append, ← List.append_assoc,
          cut_cons_neg sep d _ hp, hab]
        rfl⟩

/-- The occurrence that `cut` finds is the first one. -/
theorem cut_first (sep : Str) :
    ∀ (s a b a' b' : Str), cut sep s = some (a, b) → s = a' ++ sep ++ b' →
      a.length ≤ a'.length := by
  intro s
  induction s with
  | nil =>
    intro a b a' b' h _
    rw [cut] at h
    split at h
    · simp only [Option.some.injEq, Prod.mk.injEq] at h
      rw [← h.1]
      exact Nat.zero_le _
    · cases h
  | cons c cs ih =>
    intro a b a' b' h hs
    by_cases hp : sep.isPrefixOf (c :: cs) = true
    · rw [cut_cons_pos sep c cs hp] at h
      simp only [Option.some.injEq, Prod.mk.injEq] at h
      rw [← h.1]
      exact Nat.zero_le _
    · rw [cut_cons_neg sep c cs hp] at h
      cases hc : cut sep cs with
      | none => rw [hc] at h; cases h
      | some ab =>
        rw [hc] at h
        simp only [Option.map_some', Option.some.injEq, Prod.mk.injEq] at h
        cases a' with
        | nil =>
          exfalso
          apply hp
          rw [hs]
          exact List.isPrefixOf_iff_prefix.2 ⟨b', by simp⟩
        | cons d a'' =>
          have hcs : cs = a'' ++ sep ++ b' := by
            simp only [List.cons_append, List.cons.injEq] at hs
            exact hs.2
          have := ih ab.1 ab.2 a'' b' hc hcs
          rw [← h.1]
          simp only [List.length_cons]
          omega

theorem dropWhile_append_of_nil (p : Str → Bool) (l : List Str) :
    ∀ pre : List Str, pre.dropWhile p = [] → (pre ++ l).dropWhile p = l.dropWhile p := by
  intro pre
  induction pre with
  | nil => intro _; rfl
  | cons x pre ih =>
    intro h
    by_cases hx : p x = true
    · rw [List.dropWhile_cons_of_pos hx] at h
      rw [List.cons_append, List.dropWhile_cons_of_pos hx, ih h]
    · rw [List.dropWhile_cons_of_neg hx] at h
      cases h

/-- When the first blank line of the buffer follows the text `A`, every line of `A`
after line 0 is a header line. -/
theorem dropWhile_nil_of_first_blank (A B : Str) (l0 : Str) (pre : List Str)
    (hA : Split A CRLF = l0 :: pre)
    (hfirst : ∀ A' B', A ++ CRLF ++ CRLF ++ B = A' ++ CRLF ++ CRLF ++ B' →
      A.length ≤ A'.length) :
    pre.dropWhile (fun l => decide (l ≠ [])) = [] := by
  have hJ := Join_Split CRLF CRLF_ne_nil A
  rw [hA] at hJ
  rcases dropWhile_cases pre with h | ⟨post, -, h2⟩
  · exact h
  · exfalso
    rw [h2, ← List.cons_append] at hJ
    cases post with
    | nil =>
      -- `A` ends with CRLF: the blank line starts one CRLF earlier
      rw [Join_append CRLF [[]] (by simp) _ (by simp), Join_singleton] at hJ
      have hlen := hfirst (Join (l0 :: headerLinesOf pre) CRLF) (CRLF ++ B) (by
        rw [← hJ]; simp)
      rw [← hJ] at hlen
      simp [CRLF_eq] at hlen
    | cons y ys =>
      -- `A` contains a blank line itself
      rw [Join_append CRLF ([] :: y :: ys) (by simp) _ (by simp),
        Join_cons [] CRLF (y :: ys) (by simp)] at hJ
      have hlen := hfirst (Join (l0 :: headerLinesOf pre) CRLF)
        (Join (y :: ys) CRLF ++ CRLF ++ CRLF ++ B) (by rw [← hJ]; simp)
      rw [← hJ] at hlen
      simp [CRLF_eq] at hlen

/-- C17. Let the first line of the buffer have at least three space-separated tokens
and let the buffer contain CRLF CRLF.  With `A` the text before the first occurrence
of CRLF CRLF and `B` the text after it, `parseRequest` returns a request whose body
is CRLF followed by `B`: the suffix of the buffer that begins at the second CRLF of
that occurrence, because the joined slice of lines starts at the empty line
itself. -/
theorem parseRequest_body_from_blank_line (caseTable : Char → Char) (buf : Str)
    (h3 : 3 ≤ (Split (requestLineOf buf) " ".toList).length)
    (hcc : CRLF ++ CRLF <:+: buf) :
    ∃ A B request, buf = A ++ CRLF ++ CRLF ++ B ∧
      (∀ A' B', buf = A' ++ CRLF ++ CRLF ++ B' → A.length ≤ A'.length) ∧
      parseRequest caseTable buf = .ok request ∧ request.Body = CRLF ++ B := by
  obtain ⟨x, y, hxy⟩ := hcc
  obtain ⟨A, B, hcut⟩ := cut_isSome_of_occurs (CRLF ++ CRLF) y x
  rw [hxy] at hcut
  have hbuf : buf = A ++ CRLF ++ CRLF ++ B := by
    rw [cut_some_eq _ buf A B hcut]; simp
  have hfirst : ∀ A' B', buf = A' ++ CRLF ++ CRLF ++ B' → A.length ≤ A'.length := by
    intro A' B' h
    exact cut_first _ buf A B A' B' hcut (by rw [h]; simp)
  obtain ⟨pre, hA⟩ := Split_crlf_head A
  have hlines : Split buf CRLF = requestLineOf A :: (pre ++ [] :: Split B CRLF) := by
    rw [hbuf]
    exact Split_blank_line A B _ pre hA
  have hline : requestLineOf buf = requestLineOf A := by
    obtain ⟨rest, hrest⟩ := Split_crlf_head buf
    rw [hlines] at hrest
    exact (List.cons.inj hrest).1.symm
  rw [hline] at h3
  obtain ⟨requestLine, hrl⟩ := parseRequestLine_ok (requestLineOf A) h3
  have hdrop : (pre ++ [] :: Split B CRLF).dropWhile (fun l => decide (l ≠ [])) =
      [] :: Split B CRLF := by
    rw [dropWhile_append_of_nil _ _ pre
      (dropWhile_nil_of_first_blank A B _ pre hA (fun A' B' h => hfirst A' B' (hbuf.trans h)))]
    simp
  rw [parseRequest_of_lines caseTable buf _ _ hlines, hrl]
  refine ⟨A, B, _, hbuf, hfirst, rfl, ?_⟩
  · simp only
    rw [hdrop, Join_cons [] CRLF _ (Split_ne_nil CRLF CRLF_ne_nil B),
      Join_Split CRLF CRLF_ne_nil B]
    rfl

theorem parseRequest_body_from_blank_line_witness :
    ∃ A B request,
      "POST /e HTTP/1.1\r\nHost: a\r\n\r\nx\r\n\r\ny".toList = A ++ CRLF ++ CRLF ++ B ∧
      (∀ A' B', "POST /e HTTP/1.1\r\nHost: a\r\n\r\nx\r\n\r\ny".toList =
        A' ++ CRLF ++ CRLF ++ B' → A.length ≤ A'.length) ∧
      parseRequest id "POST /e HTTP/1.1\r\nHost: a\r\n\r\nx\r\n\r\ny".toList = .ok request ∧
      request.Body = CRLF ++ B :=
  parseRequest_body_from_blank_line id "POST /e HTTP/1.1\r\nHost: a\r\n\r\nx\r\n\r\ny".toList
    (by decide) (by decide)

/-! ## Repeated header names -/

theorem GoMap.mem_keys_set {β : Type} (k : Str) (v : β) (k₀ : Str) :
    ∀ m : GoMap β, k₀ ∈ (m.set k v).map Prod.fst ↔ k₀ = k ∨ k₀ ∈ m.map Prod.fst := by
  intro m
  induction m with
  | nil =>
    rw [GoMap.set, List.map_cons, List.mem_cons, List.map_nil]
  | cons e m ih =>
    obtain ⟨k', v'⟩ := e
    by_cases hk : k' = k
    · subst hk
      rw [GoMap.set, if_pos rfl, List.map_cons, List.mem_cons, List.map_cons, List.mem_cons]
      constructor
      · rintro (h | h)
        · exact Or.inl h
        · exact Or.inr (Or.inr h)
      · rintro (h | h | h)
        · exact Or.inl h
        · exact Or.inl h
        · exact Or.inr h
    · rw [GoMap.set, if_neg hk, List.map_cons, List.mem_cons, ih, List.map_cons, List.mem_cons]
      exact or_left_comm

theorem GoMap.nodup_keys_set {β : Type} (k : Str) (v : β) :
    ∀ m : GoMap β, (m.map Prod.fst).Nodup → ((m.set k v).map Prod.fst).Nodup := by
  intro m
  induction m with
  | nil => intro _; simp [GoMap.set]
  | cons e m ih =>
    obtain ⟨k', v'⟩ := e
    intro h
    rw [List.map_cons, List.nodup_cons] at h
    by_cases hk : k' = k
    · subst hk
      rw [GoMap.set, if_pos rfl, List.map_cons, List.nodup_cons]
      exact h
    · rw [GoMap.set, if_neg hk, List.map_cons, List.nodup_cons, GoMap.mem_keys_set]
      refine ⟨?_, ih h.2⟩
      rintro (h' | h')
      · exact hk h'
      · exact h.1 h'

/-- A line splits at its first colon in one way only. -/
theorem colon_split_unique (n w n' w' : Str) (hn : ':' ∉ n) (hn' : ':' ∉ n')
    (h : n ++ ':' :: w = n' ++ ':' :: w') : n = n' ∧ w = w' := by
  have h1 := cut_char_append ':' w n hn
  have h2 := cut_char_append ':' w' n' hn'
  rw [h, h2] at h1
  simp only [Option.some.injEq, Prod.mk.injEq] at h1
  exact ⟨h1.1.symm, h1.2.symm⟩

theorem headerStep_nodup (caseTable : Char → Char) (headers : GoMap Str) (l : Str)
    (h : (headers.map Prod.fst).Nodup) :
    ((headerStep caseTable headers l).map Prod.fst).Nodup := by
  rcases colon_cases l with hno | ⟨n, w, rfl, hn⟩
  · rw [headerStep_of_no_colon caseTable headers l hno]
    exact h
  · rw [headerStep_of_colon caseTable headers n w hn]
    exact GoMap.nodup_keys_set _ _ headers h

theorem foldl_headerStep_nodup (caseTable : Char → Char) :
    ∀ (ls : List Str) (headers : GoMap Str), (headers.map Prod.fst).Nodup →
      ((ls.foldl (headerStep caseTable) headers).map Prod.fst).Nodup := by
  intro ls
  induction ls with
  | nil => intro headers h; exact h
  | cons l ls ih =>
    intro headers h
    rw [List.foldl_cons]
    exact ih _ (headerStep_nodup caseTable headers l h)

/-- The keys of the gathered header map are the keys it started with and the
normalised names of the lines that have a colon. -/
theorem foldl_headerStep_keys (caseTable : Char → Char) (k : Str) :
    ∀ (ls : List Str) (headers : GoMap Str),
      k ∈ (ls.foldl (headerStep caseTable) headers).map Prod.fst ↔
        k ∈ headers.map Prod.fst ∨
          ∃ n w, ':' ∉ n ∧ n ++ ':' :: w ∈ ls ∧ ToLower caseTable (TrimSpace n) = k := by
  intro ls
  induction ls with
  | nil => intro headers; simp
  | cons l ls ih =>
    intro headers
    rw [List.foldl_cons, ih]
    rcases colon_cases l with hno | ⟨n₀, w₀, rfl, hn₀⟩
    · rw [headerStep_of_no_colon caseTable headers l hno]
      constructor
      · rintro (h | ⟨n, w, hn, hmem, hk⟩)
        · exact Or.inl h
        · exact Or.inr ⟨n, w, hn, List.mem_cons_of_mem _ hmem, hk⟩
      · rintro (h | ⟨n, w, hn, hmem, hk⟩)
        · exact Or.inl h
        · rcases List.mem_cons.1 hmem with he | hmem'
          · exact absurd (he ▸ (by simp : ':' ∈ n ++ ':' :: w)) hno
          · exact Or.inr ⟨n, w, hn, hmem', hk⟩
    · rw [headerStep_of_colon caseTable headers n₀ w₀ hn₀, GoMap.mem_keys_set]
      constructor
      · rintro ((h | h) | ⟨n, w, hn, hmem, hk⟩)
        · exact Or.inr ⟨n₀, w₀, hn₀, List.mem_cons_self _ _, h.symm⟩
        · exact Or.inl h
        · exact Or.inr ⟨n, w, hn, List.mem_cons_of_mem _ hmem, hk⟩
      · rintro (h | ⟨n, w, hn, hmem, hk⟩)
        · exact Or.inl (Or.inr h)
        · rcases List.mem_cons.1 hmem with he | hmem'
          · have := (colon_split_unique n w n₀ w₀ hn hn₀ he).1
            subst this
            exact Or.inl (Or.inl hk.symm)
          · exact Or.inr ⟨n, w, hn, hmem', hk⟩

/-- C18. Let the first line of the buffer have at least three space-separated
tokens.  `parseRequest` returns a request whose header map has pairwise distinct
keys, has as keys exactly the normalised names (lower-cased, trimmed text before the
first colon) of the header lines that have a colon, and holds for each name the
trimmed value of the LAST header line with that name. -/
theorem parseRequest_last_header_wins (caseTable : Char → Char) (buf : Str)
    (h3 : 3 ≤ (Split (requestLineOf buf) " ".toList).length) :
    ∃ request, parseRequest caseTable buf = .ok request ∧
      (request.Headers.map Prod.fst).Nodup ∧
      (∀ k, k ∈ request.Headers.map Prod.fst ↔
        ∃ n w, ':' ∉ n ∧ n ++ ':' :: w ∈ headerLinesOf ((Split buf CRLF).drop 1) ∧
          ToLower caseTable (TrimSpace n) = k) ∧
      (∀ pre post n w,
        headerLinesOf ((Split buf CRLF).drop 1) = pre ++ (n ++ ':' :: w) :: post →
        ':' ∉ n →
        (∀ n' w', ':' ∉ n' → n' ++ ':' :: w' ∈ post →
          ToLower caseTable (TrimSpace n') ≠ ToLower caseTable (TrimSpace n)) →
        request.Headers.get (ToLower caseTable (TrimSpace n)) = some (TrimSpace w)) := by
  obtain ⟨rest, hrest⟩ := Split_crlf_head buf
  obtain ⟨requestLine, hrl⟩ := parseRequestLine_ok _ h3
  rw [parseRequest_of_lines caseTable buf _ rest hrest, hrl, hrest]
  refine ⟨_, rfl, ?_, ?_, ?_⟩
  · exact foldl_headerStep_nodup caseTable _ [] (by simp)
  · intro k
    simp only [List.drop_succ_cons, List.drop_zero]
    rw [foldl_headerStep_keys]
    simp
  · intro pre post n w hhl hn hlast
    simp only [List.drop_succ_cons, List.drop_zero] at hhl ⊢
    rw [hhl, List.foldl_append, List.foldl_cons,
      foldl_headerStep_get caseTable _ post _
        (fun l hl n' w' he hn' => hlast n' w' hn' (he ▸ hl)),
      headerStep_of_colon caseTable _ n w hn]
    exact GoMap.get_set_same _ _ _

theorem parseRequest_last_header_wins_witness :
    ∃ request,
      parseRequest id "GET / HTTP/1.1\r\nA: 1\r\nB: x\r\n a : 2\r\n\r\n".toList = .ok request ∧
      request.Headers.get "a".toList = some "2".toList ∧
      (request.Headers.map Prod.fst).Nodup ∧ request.Headers.length = 2 := by
  obtain ⟨request, h1, h2, -, h4⟩ := parseRequest_last_header_wins id
    "GET / HTTP/1.1\r\nA: 1\r\nB: x\r\n a : 2\r\n\r\n".toList (by decide)
  refine ⟨request, h1,
    h4 ["A: 1".toList, "B: x".toList] [] " a ".toList " 2".toList (by decide) (by decide)
      (by simp), h2, ?_⟩
  have h5 : parseRequest id "GET / HTTP/1.1\r\nA: 1\r\nB: x\r\n a : 2\r\n\r\n".toList =
      .ok ⟨⟨"GET".toList, "/".toList, "HTTP/1.1".toList⟩,
        [("a".toList, "2".toList), ("b".toList, "x".toList)], "\r\n".toList⟩ := by decide
  rw [h5] at h1
  cases h1
  rfl

end HttpServer
